import Mathlib

/-
Verification of the nginx-tail log dashboard.

Strings from the Rust source are modelled as `List Char`; where the source
manipulates raw byte indices (extract_statuscode) strings are modelled as
`List Nat` byte sequences instead, and where it mixes byte lengths with
character positions (the tag trimming and the stats rendering) the byte
length of a character list is computed through the UTF-8 sizes of its
characters and byte slicing is boundary-checked.  Fallible operations
(index arithmetic that can overflow, byte slicing that can miss a
character boundary, the assertion in RingbufferSpeedometer::new) are
modelled with `Option`, where `none` stands for a panic of the source
program.  f32 values are modelled exactly, as canonical binary32
mantissa-exponent pairs together with the infinities and NaN, with every
arithmetic operation correctly rounded.
-/

set_option maxHeartbeats 1000000

namespace NginxTail

/-- Convert a string literal into the `List Char` representation used by the model. -/
def str (s : String) : List Char := s.data

-- Color escape sequences from src/terminal.rs (module `colors`).
namespace colors

def CSI : List Char := str "\x1b["

def GREEN : List Char := str "\x1b[32m"

def PURPLE : List Char := str "\x1b[35m"

def YELLOW : List Char := str "\x1b[33m"

def RED : List Char := str "\x1b[31m"

def WHITE : List Char := str "\x1b[1\x1b[37m"

def ORANGE : List Char := str "\x1b[93m"

def RESET : List Char := str "\x1b[0m"

end colors

/-! ## src/parsing.rs -/

/-- A parsed access-log line (struct `ParsedLine` in src/parsing.rs).
Optional fields hold the separator text between two adjacent fields;
`none` means parsing stopped before reaching that separator. -/
structure ParsedLine where
  head : List Char
  head_date : Option (List Char)
  date : List Char
  date_method : Option (List Char)
  method : List Char
  method_url : Option (List Char)
  url : List Char
  url_lvl : Option (List Char)
  protocollvl : List Char
  lvl_statuscode : Option (List Char)
  statuscode : List Char
  tail : List Char
  deriving Repr, DecidableEq

/-- One scanning loop of `parse_nginx_line`: consume characters until the
stop character is found.  Returns the consumed characters and, when the
stop character was found, the remaining input after it (`none` models the
`None => break` arm: the input ran out). -/
def takeUntil (stop : Char) : List Char → List Char × Option (List Char)
  | [] => ([], none)
  | c :: rest =>
    if c = stop then ([], some rest)
    else
      let r := takeUntil stop rest
      (c :: r.1, r.2)

/-- Model of `parse_nginx_line` (src/parsing.rs lines 23-137).  The nested
matches mirror the sequence of scanning loops inside the labelled
outer loop of the source; each `none` case of `takeUntil` corresponds
to a break out of the outer loop with the fields collected so far and the
remaining fields at their initial empty values. -/
def parse_nginx_line (line : List Char) : ParsedLine :=
  match takeUntil '[' line with
  | (h, none) => ⟨h, none, [], none, [], none, [], none, [], none, [], []⟩
  | (h, some r1) =>
    match takeUntil ']' r1 with
    | (d, none) => ⟨h, some ['['], d, none, [], none, [], none, [], none, [], []⟩
    | (d, some r2) =>
      match r2 with
      | [] => ⟨h, some ['['], d, some [']'], [], none, [], none, [], none, [], []⟩
      | c :: r3 =>
        if c = ' ' then
          match takeUntil '"' r3 with
          | (mid, none) =>
            ⟨h, some ['['], d, some (']' :: ' ' :: mid), [], none, [], none, [], none, [], []⟩
          | (mid, some r4) =>
            match takeUntil ' ' r4 with
            | (m, none) =>
              ⟨h, some ['['], d, some (']' :: ' ' :: (mid ++ ['"'])), m, none,
                [], none, [], none, [], []⟩
            | (m, some r5) =>
              match takeUntil ' ' r5 with
              | (u, none) =>
                ⟨h, some ['['], d, some (']' :: ' ' :: (mid ++ ['"'])), m, some [' '],
                  u, none, [], none, [], []⟩
              | (u, some r6) =>
                match takeUntil '"' r6 with
                | (p, none) =>
                  ⟨h, some ['['], d, some (']' :: ' ' :: (mid ++ ['"'])), m, some [' '],
                    u, some [' '], p, none, [], []⟩
                | (p, some r7) =>
                  match r7 with
                  | [] =>
                    ⟨h, some ['['], d, some (']' :: ' ' :: (mid ++ ['"'])), m, some [' '],
                      u, some [' '], p, some ['"'], [], []⟩
                  | c2 :: r8 =>
                    if c2 = ' ' then
                      match takeUntil ' ' r8 with
                      | (sc, none) =>
                        ⟨h, some ['['], d, some (']' :: ' ' :: (mid ++ ['"'])), m,
                          some [' '], u, some [' '], p, some ['"', ' '], sc, []⟩
                      | (sc, some r9) =>
                        ⟨h, some ['['], d, some (']' :: ' ' :: (mid ++ ['"'])), m,
                          some [' '], u, some [' '], p, some ['"', ' '], sc, ' ' :: r9⟩
                    else
                      ⟨h, some ['['], d, some (']' :: ' ' :: (mid ++ ['"'])), m,
                        some [' '], u, some [' '], p, some ['"'], [], c2 :: r8⟩
        else ⟨h, some ['['], d, some [']'], [], none, [], none, [], none, [], c :: r3⟩

/-- Model of `code2color` (src/parsing.rs lines 142-151). -/
def code2color (code : List Char) : List Char × List Char :=
  match code with
  | [] => ([], [])
  | c :: _ =>
    if c = '2' then (colors.GREEN, colors.RESET)
    else if c = '3' then (colors.PURPLE, colors.RESET)
    else if c = '4' then (colors.YELLOW, colors.RESET)
    else if c = '5' then (colors.RED, colors.RESET)
    else (colors.WHITE, colors.RESET)

/-- Rendering of the method field by `impl Display for ParsedLine`:
a `POST` method is wrapped in the highlight color.  With `colored = false`
the inserted escape sequences are left out, which is exactly the
"stripping all inserted color escape sequences" of the round-trip law. -/
def methodText (colored : Bool) (m : List Char) : List Char :=
  if colored ∧ m = str "POST" then colors.WHITE ++ m ++ colors.RESET else m

/-- Rendering of the status-code field by `impl Display for ParsedLine`:
the code is wrapped in the color chosen by `code2color`. -/
def statusText (colored : Bool) (sc : List Char) : List Char :=
  if colored then (code2color sc).1 ++ sc ++ (code2color sc).2 else sc

/-- Model of `impl Display for ParsedLine` (src/parsing.rs lines 164-196):
fields are written in order; at the first absent separator the tail is
flushed and rendering stops (the `unwrap_or_print_tail_then_return_ok`
macro of the source). -/
def render (colored : Bool) (p : ParsedLine) : List Char :=
  p.head ++
    match p.head_date with
    | none => p.tail
    | some s1 =>
      s1 ++ p.date ++
        match p.date_method with
        | none => p.tail
        | some s2 =>
          s2 ++ methodText colored p.method ++
            match p.method_url with
            | none => p.tail
            | some s3 =>
              s3 ++ p.url ++
                match p.url_lvl with
                | none => p.tail
                | some s4 =>
                  s4 ++ p.protocollvl ++
                    match p.lvl_statuscode with
                    | none => p.tail
                    | some s5 => s5 ++ statusText colored p.statuscode ++ p.tail

/-- Contents of an optional separator field; an absent separator contributes nothing. -/
def ocat : Option (List Char) → List Char
  | none => []
  | some s => s

/-- Concatenation of all fields and separators of a `ParsedLine`, in order,
with the tail appended (the invariant stated for `ParsedLine` in the spec). -/
def cat (p : ParsedLine) : List Char :=
  p.head ++ ocat p.head_date ++ p.date ++ ocat p.date_method ++ p.method ++
    ocat p.method_url ++ p.url ++ ocat p.url_lvl ++ p.protocollvl ++
    ocat p.lvl_statuscode ++ p.statuscode ++ p.tail

/-- The separator fields of a `ParsedLine` are populated left to right:
each separator is present only if the one before it is present. -/
def sepChain (p : ParsedLine) : Prop :=
  (p.date_method.isSome → p.head_date.isSome) ∧
    (p.method_url.isSome → p.date_method.isSome) ∧
    (p.url_lvl.isSome → p.method_url.isSome) ∧
    (p.lvl_statuscode.isSome → p.url_lvl.isSome)

/-! ## src/speedometer.rs -/

/-! ### An exact model of IEEE binary32 (f32) arithmetic

The speeds of src/speedometer.rs are f32 values.  A finite binary32 value
is exactly a number m * 2 ^ e with an integer mantissa |m| < 2 ^ 24 and
exponent -149 <= e <= 104, so the model carries finite values as such a
pair, together with the two infinities and NaN; every arithmetic
operation computes the exact result and rounds it to the nearest
representable value (ties to even), overflowing to an infinity at
2 ^ 128, as the hardware does.  All computations below are plain natural
and integer arithmetic, so they evaluate inside the kernel.  The sign of
a floating-point zero is not tracked: no computation reached by the
claims distinguishes negative from positive zero. -/

/-- An f32 value: a finite value m * 2 ^ e, an infinity, or NaN.  Values
produced by the operations below are canonical: 2 ^ 23 <= |m| < 2 ^ 24
with -149 <= e <= 104, or |m| < 2 ^ 23 with e = -149 (subnormal), or
m = 0 with e = 0. -/
inductive F32 where
  | finite (m : ℤ) (e : ℤ)
  | inf
  | ninf
  | nan
  deriving DecidableEq, Repr

/-- The number of binary digits of n: the least L (up to the fuel bound,
far beyond every magnitude reached below) with n < 2 ^ L. -/
def bitlenGo (n : Nat) : Nat → Nat → Nat
  | 0, L => L
  | fuel + 1, L => if n < 2 ^ L then L else bitlenGo n fuel (L + 1)

def bitlen (n : Nat) : Nat := bitlenGo n 600 0

/-- Round-to-nearest-even of the quotient n / d of naturals (d nonzero). -/
def rneDiv (n d : Nat) : Nat :=
  let q := n / d
  let r := n % d
  if d < 2 * r then q + 1
  else if 2 * r < d then q
  else if q % 2 = 0 then q else q + 1

/-- Round an exact value M * 2 ^ E to the binary32 grid: a 24-bit
mantissa (fewer bits only at the minimum exponent -149), rounded to
nearest with ties to even, overflowing to an infinity at 2 ^ 128. -/
def f32reduce (M : ℤ) (E : ℤ) : F32 :=
  if M = 0 then F32.finite 0 0
  else
    let N := M.natAbs
    let prec : ℤ := max ((bitlen N : ℤ) + E - 24) (-149)
    let m : Nat :=
      if E ≤ prec then rneDiv N (2 ^ (prec - E).toNat)
      else N * 2 ^ (E - prec).toNat
    let m2 := if 2 ^ 24 ≤ m then m / 2 else m
    let prec2 := if 2 ^ 24 ≤ m then prec + 1 else prec
    if 104 < prec2 then (if 0 < M then F32.inf else F32.ninf)
    else if m2 = 0 then F32.finite 0 0
    else F32.finite (if 0 < M then (m2 : ℤ) else -(m2 : ℤ)) prec2

/-- Rust `x as f32` on a u32 value (rounded to nearest, ties to even). -/
def f32ofNat (n : Nat) : F32 := f32reduce n 0

def F32.isNaN : F32 → Bool
  | F32.nan => true
  | _ => false

def F32.isInfinite : F32 → Bool
  | F32.inf => true
  | F32.ninf => true
  | _ => false

/-- f32 negation (exact). -/
def f32neg : F32 → F32
  | F32.finite m e => F32.finite (-m) e
  | F32.inf => F32.ninf
  | F32.ninf => F32.inf
  | F32.nan => F32.nan

/-- f32 addition: the exact sum, correctly rounded. -/
def f32add : F32 → F32 → F32
  | F32.nan, _ => F32.nan
  | _, F32.nan => F32.nan
  | F32.inf, F32.ninf => F32.nan
  | F32.ninf, F32.inf => F32.nan
  | F32.inf, _ => F32.inf
  | _, F32.inf => F32.inf
  | F32.ninf, _ => F32.ninf
  | _, F32.ninf => F32.ninf
  | F32.finite m1 e1, F32.finite m2 e2 =>
    let e := min e1 e2
    f32reduce (m1 * 2 ^ (e1 - e).toNat + m2 * 2 ^ (e2 - e).toNat) e

/-- f32 subtraction: addition of the exact negation. -/
def f32sub (a b : F32) : F32 := f32add a (f32neg b)

/-- f32 multiplication: the exact product, correctly rounded. -/
def f32mul : F32 → F32 → F32
  | F32.nan, _ => F32.nan
  | _, F32.nan => F32.nan
  | F32.inf, F32.inf => F32.inf
  | F32.inf, F32.ninf => F32.ninf
  | F32.ninf, F32.inf => F32.ninf
  | F32.ninf, F32.ninf => F32.inf
  | F32.inf, F32.finite m _ =>
    if m = 0 then F32.nan else if 0 < m then F32.inf else F32.ninf
  | F32.finite m _, F32.inf =>
    if m = 0 then F32.nan else if 0 < m then F32.inf else F32.ninf
  | F32.ninf, F32.finite m _ =>
    if m = 0 then F32.nan else if 0 < m then F32.ninf else F32.inf
  | F32.finite m _, F32.ninf =>
    if m = 0 then F32.nan else if 0 < m then F32.ninf else F32.inf
  | F32.finite m1 e1, F32.finite m2 e2 => f32reduce (m1 * m2) (e1 + e2)

/-- f32 division of finite values with a nonzero divisor: the quotient is
widened by 80 guard bits and a sticky bit (ample, since canonical
mantissas stay below 2 ^ 24), which makes the subsequent reduction round
the exact quotient correctly. -/
def f32divFin (m1 e1 m2 e2 : ℤ) : F32 :=
  let N := m1.natAbs * 2 ^ 80
  let D := m2.natAbs
  let q := N / D
  let M := 2 * q + (if N % D = 0 then 0 else 1)
  f32reduce (if (0 < m1 ∧ 0 < m2) ∨ (m1 < 0 ∧ m2 < 0) then (M : ℤ) else -(M : ℤ))
    (e1 - e2 - 81)

/-- f32 division: a nonzero finite value divided by zero is a signed
infinity and zero divided by zero is NaN, as IEEE 754 prescribes. -/
def f32div : F32 → F32 → F32
  | F32.nan, _ => F32.nan
  | _, F32.nan => F32.nan
  | F32.inf, F32.inf => F32.nan
  | F32.inf, F32.ninf => F32.nan
  | F32.ninf, F32.inf => F32.nan
  | F32.ninf, F32.ninf => F32.nan
  | F32.inf, F32.finite m _ => if 0 ≤ m then F32.inf else F32.ninf
  | F32.ninf, F32.finite m _ => if 0 ≤ m then F32.ninf else F32.inf
  | F32.finite _ _, F32.inf => F32.finite 0 0
  | F32.finite _ _, F32.ninf => F32.finite 0 0
  | F32.finite m1 e1, F32.finite m2 e2 =>
    if m2 = 0 then
      (if m1 = 0 then F32.nan else if 0 < m1 then F32.inf else F32.ninf)
    else f32divFin m1 e1 m2 e2

/-- The exact rational denoted by a finite mantissa-exponent pair. -/
def F32Rat (m e : ℤ) : ℚ := (m : ℚ) * 2 ^ e

/-- The exact rational value of an f32, if it is finite. -/
def F32.toRat : F32 → Option ℚ
  | F32.finite m e => some (F32Rat m e)
  | _ => none

/-- Model of `RingbufferSpeedometer` (src/speedometer.rs lines 43-61).
The VecDeque of measurements is a list with its front (oldest measurement)
at the head; a measurement is an (elapsed milliseconds, message count)
pair of the u32 values of the source. -/
structure RingbufferSpeedometer where
  capacity : Nat
  measurements : List (Nat × Nat)
  deriving Repr, DecidableEq

/-- Model of `RingbufferSpeedometer::new` (lines 56-61): the constructor
asserts `capacity > 0`, so `none` models that assertion failing.  The
second assertion of the source (the VecDeque really allocated exactly the
requested capacity) is taken to hold. -/
def RingbufferSpeedometer.new (capacity : Nat) : Option RingbufferSpeedometer :=
  if capacity = 0 then none else some ⟨capacity, []⟩

/-- Model of `RingbufferSpeedometer::add_measurement` (lines 77-83): when
the buffer is full the oldest measurement is popped before the new one is
pushed at the back. -/
def RingbufferSpeedometer.add_measurement (s : RingbufferSpeedometer)
    (duration msgs : Nat) : RingbufferSpeedometer :=
  if s.measurements.length = s.capacity then
    ⟨s.capacity, s.measurements.tail ++ [(duration, msgs)]⟩
  else
    ⟨s.capacity, s.measurements ++ [(duration, msgs)]⟩

/-- Componentwise total of a list of (duration, message count)
measurements as unbounded naturals (specification-side, for stating when
the u32 fold below stays in range). -/
def sumNat (ms : List (Nat × Nat)) : Nat × Nat :=
  ms.foldl (fun st e => (st.1 + e.1, st.2 + e.2)) (0, 0)

/-- The fold inside `get_speed` (lines 68-73): componentwise sum of the
retained measurements.  The additions are u32 additions, so `none` models
the debug-build panic when a partial sum reaches 2 ^ 32 (a release build
wraps instead and reports a wrong speed). -/
def sumMeasurements (ms : List (Nat × Nat)) : Option (Nat × Nat) :=
  ms.foldl
    (fun st e => st.bind (fun s =>
      if s.1 + e.1 < 2 ^ 32 ∧ s.2 + e.2 < 2 ^ 32 then some (s.1 + e.1, s.2 + e.2)
      else none))
    (some (0, 0))

/-- Model of `RingbufferSpeedometer::get_speed` (lines 64-75): zero when
no measurement is retained, otherwise the f32 evaluation of
`msgs as f32 * 1000.0 / (time as f32)` over the u32 window sums. -/
def RingbufferSpeedometer.get_speed (s : RingbufferSpeedometer) : Option F32 :=
  if s.measurements.isEmpty then some (F32.finite 0 0)
  else
    (sumMeasurements s.measurements).map (fun tm =>
      f32div (f32mul (f32ofNat tm.2) (F32.finite 1000 0)) (f32ofNat tm.1))

/-- Feed a list of measurements into a ring speedometer, oldest first. -/
def feedRing (s : RingbufferSpeedometer) (ms : List (Nat × Nat)) : RingbufferSpeedometer :=
  ms.foldl (fun acc dm => acc.add_measurement dm.1 dm.2) s

/-- Model of `SmootherSpeedometer` (src/speedometer.rs lines 86-101). -/
structure SmootherSpeedometer where
  speed : F32
  smooth_factor : F32
  deriving Repr, DecidableEq

/-- Model of `SmootherSpeedometer::new` (lines 96-101): the speed starts at 0. -/
def SmootherSpeedometer.new (smooth_factor : F32) : SmootherSpeedometer :=
  ⟨F32.finite 0 0, smooth_factor⟩

/-- The instant rate `msgs as f32 * 1000.0 / duration as f32` computed by
`SmootherSpeedometer::add_measurement` (line 109): two correctly rounded
f32 operations on the converted u32 inputs. -/
def instantRate (duration msgs : Nat) : F32 :=
  f32div (f32mul (f32ofNat msgs) (F32.finite 1000 0)) (f32ofNat duration)

/-- Model of `SmootherSpeedometer::add_measurement` (lines 108-121): a NaN
or infinite instant rate is discarded without touching the state;
otherwise the stored speed becomes
`smooth_factor * new_speed + (1.0 - smooth_factor) * speed` with every
operation rounded in f32. -/
def SmootherSpeedometer.add_measurement (s : SmootherSpeedometer)
    (duration msgs : Nat) : SmootherSpeedometer :=
  let new_speed := instantRate duration msgs
  if new_speed.isNaN then s
  else if new_speed.isInfinite then s
  else
    ⟨f32add (f32mul s.smooth_factor new_speed)
        (f32mul (f32sub (F32.finite 1 0) s.smooth_factor) s.speed),
      s.smooth_factor⟩

/-- Model of `SmootherSpeedometer::get_speed` (lines 104-106). -/
def SmootherSpeedometer.get_speed (s : SmootherSpeedometer) : F32 := s.speed

/-- Feed a list of measurements into a smoother speedometer, oldest first. -/
def feedSmoother (s : SmootherSpeedometer) (ms : List (Nat × Nat)) : SmootherSpeedometer :=
  ms.foldl (fun acc dm => acc.add_measurement dm.1 dm.2) s

/-- Speeds reported after each measurement of a sequence, as asserted by
`test_smoother_speedometer` in src/speedometer.rs. -/
def smootherOutputs (s : SmootherSpeedometer) : List (Nat × Nat) → List F32
  | [] => []
  | dm :: ms =>
    (s.add_measurement dm.1 dm.2).get_speed ::
      smootherOutputs (s.add_measurement dm.1 dm.2) ms

/-- Measurement sequence of C9: (100,10), (150,30), then ten times (1000,0). -/
def c9Inputs : List (Nat × Nat) :=
  [(100, 10), (150, 30), (1000, 0), (1000, 0), (1000, 0), (1000, 0), (1000, 0),
    (1000, 0), (1000, 0), (1000, 0), (1000, 0), (1000, 0)]

/-! ## extract_statuscode (src/lib.rs lines 41-63)

The source indexes the line by raw byte positions (`str::find` returns a
byte index and `&line[a..b]` slices by bytes), so this part of the model
works on `List Nat` byte sequences.  Byte slicing panics when the index is
not a character boundary, which the model renders as `none`. -/

/-- Rust `chars().nth_back(i)`: the i-th character counted from the back. -/
def nthBack (l : List Char) (i : Nat) : Option Char := l.reverse[i]?

/-- The UTF-8 byte length of a string modelled as its character list
(Rust `str::len`). -/
def byteLen (l : List Char) : Nat := (l.map Char.utf8Size).sum

/-- Rust byte slicing `&s[..k]` on a string modelled as characters: take
whole characters until exactly k bytes are consumed; `none` models the
panic when k is past the end or not a character boundary. -/
def takeBytes : List Char → Nat → Option (List Char)
  | _, 0 => some []
  | [], _ + 1 => none
  | c :: cs, k + 1 =>
    if c.utf8Size ≤ k + 1 then
      (takeBytes cs (k + 1 - c.utf8Size)).map (fun r => c :: r)
    else none

/-- Rust byte slicing `&s[k..]`: drop whole characters until exactly k
bytes are consumed; `none` models the panic when k is past the end or not
a character boundary. -/
def dropBytes : List Char → Nat → Option (List Char)
  | l, 0 => some l
  | [], _ + 1 => none
  | c :: cs, k + 1 =>
    if c.utf8Size ≤ k + 1 then dropBytes cs (k + 1 - c.utf8Size) else none

/-- Rust byte slicing `&s[a..b]`; `none` models the panic on an inverted
range or an endpoint that is out of range or not a character boundary. -/
def sliceBytes (l : List Char) (a b : Nat) : Option (List Char) :=
  if a ≤ b then (dropBytes l a).bind (fun r => takeBytes r (b - a)) else none

/-- Inner loop of the shared-prefix scan of `GroupMap::update_trimmed_tags`
(src/collections.rs lines 146-155): visit the tags at character position i,
folding each visited tag's byte length into the running maximum
(`max_tag_length` is updated before the comparison, so the breaking tag
still contributes); return false as soon as one tag disagrees with the
first tag at position i. -/
def scanAt (ci : Option Char) (i : Nat) (m : Nat) : List (List Char) → Nat × Bool
  | [] => (m, true)
  | t :: rest =>
    if t[i]? = ci then scanAt ci i (max m (byteLen t)) rest
    else (max m (byteLen t), false)

/-- Outer loop of the shared-prefix scan (src/collections.rs lines
146-155): the index i counts up from 0 while the fuel counts down from the
byte length of the first tag, but indexes characters (`chars().nth(i)`);
while every tag agrees at position i the character there is appended to
the prefix being built.  When the byte length exceeds the character count
and every tag also agrees past its end, the source unwraps a `None`
character, modelled by `none`. -/
def prefixScan (first : List Char) (tags : List (List Char)) :
    Nat → Nat → List Char → Nat → Option (List Char × Nat)
  | _, 0, pre, m => some (pre, m)
  | i, fuel + 1, pre, m =>
    match scanAt (first[i]?) i m tags with
    | (m2, true) =>
      match first[i]? with
      | some c => prefixScan first tags (i + 1) fuel (pre ++ [c]) m2
      | none => none
    | (m2, false) => some (pre, m2)

/-- Inner loop of the shared-suffix scan (src/collections.rs lines
157-165): true when every tag carries the same i-th-from-the-back
character as the first tag. -/
def suffixScanAt (ci : Option Char) (i : Nat) : List (List Char) → Bool
  | [] => true
  | t :: rest => if nthBack t i = ci then suffixScanAt ci i rest else false

/-- Outer loop of the shared-suffix scan (src/collections.rs lines
157-165): the index again runs up to the byte length of the first tag
while `chars().nth_back(i)` selects characters; while every tag agrees at
back-position i the character is inserted at the front of the suffix
being built, and a unanimous agreement past the character count makes the
source unwrap a `None` character, modelled by `none`. -/
def suffixScan (first : List Char) (tags : List (List Char)) :
    Nat → Nat → List Char → Option (List Char)
  | _, 0, suf => some suf
  | i, fuel + 1, suf =>
    if suffixScanAt (nthBack first i) i tags then
      match nthBack first i with
      | some c => suffixScan first tags (i + 1) fuel (c :: suf)
      | none => none
    else some suf

/-- The shared-prefix scan specialised to single-byte characters: on such
names `scanAt` and its byte-length maximum coincide with this character
count version, through which the proofs below factor. -/
def scanAtC (ci : Option Char) (i : Nat) (m : Nat) : List (List Char) → Nat × Bool
  | [] => (m, true)
  | t :: rest =>
    if t[i]? = ci then scanAtC ci i (max m t.length) rest
    else (max m t.length, false)

/-- The outer prefix scan specialised to single-byte characters: the fuel
equals the character count, so the unwrap of `prefixScan` never fires. -/
def prefixScanC (first : List Char) (tags : List (List Char)) :
    Nat → Nat → List Char → Nat → List Char × Nat
  | _, 0, pre, m => (pre, m)
  | i, fuel + 1, pre, m =>
    match scanAtC (first[i]?) i m tags with
    | (m2, true) => prefixScanC first tags (i + 1) fuel (pre ++ (first[i]?).toList) m2
    | (m2, false) => (pre, m2)

/-- The outer suffix scan specialised to single-byte characters. -/
def suffixScanC (first : List Char) (tags : List (List Char)) :
    Nat → Nat → List Char → List Char
  | _, 0, suf => suf
  | i, fuel + 1, suf =>
    if suffixScanAt (nthBack first i) i tags then
      suffixScanC first tags (i + 1) fuel ((nthBack first i).toList ++ suf)
    else suf

/-- Model of `GroupMap::update_trimmed_tags` (src/collections.rs lines
134-181) on the list of group names in insertion order together with the
current shared strings (source fields `shared_prefix` and
`shared_suffix`).  All lengths are byte lengths, as in the source, while
the scan positions count characters (`chars().nth`), faithfully keeping
the source's conflation of the two.  `none` models a panic: a scan
unwrapping a missing character, the usize subtraction `max_tag_length -
prefix length - suffix length` underflowing (a panic in a debug build; a
release build wraps and then skips the trimming), the slice index
`shared_prefix.len() - chars_to_preserve` underflowing (debug panic; the
release wrap sends the slice out of range, which panics too), or the
final byte slicing of the prefix hitting a non-boundary index. -/
def update_trimmed_tags (names : List (List Char)) (curPre curSuf : List Char) :
    Option (List Char × List Char) :=
  if names.length < 2 then some (curPre, curSuf)
  else
    match names with
    | [] => some (curPre, curSuf)
    | first :: _ =>
      match prefixScan first names 0 (byteLen first) [] 0 with
      | none => none
      | some pm =>
        match suffixScan first names 0 (byteLen first) [] with
        | none => none
        | some suf =>
          if pm.2 < byteLen pm.1 + byteLen suf then none
          else
            let text_left := pm.2 - byteLen pm.1 - byteLen suf
            if text_left < 8 then
              if pm.2 < 8 then some ([], [])
              else
                if byteLen pm.1 < 8 - text_left then none
                else
                  match takeBytes pm.1 (byteLen pm.1 - (8 - text_left)) with
                  | none => none
                  | some cut => some (cut, suf)
            else some (pm.1, suf)

/-- Longest common prefix of two character lists. -/
def lcp2 : List Char → List Char → List Char
  | a :: as, b :: bs => if a = b then a :: lcp2 as bs else []
  | _, _ => []

/-- Longest common prefix of a set of names (specification-side
definition, to compare the scan of the source against). -/
def specLcp (names : List (List Char)) : List Char :=
  match names with
  | [] => []
  | first :: rest => rest.foldl lcp2 first

/-- Longest common suffix of a set of names: the reversed longest common
prefix of the reversed names. -/
def specLcs (names : List (List Char)) : List Char :=
  (specLcp (names.map List.reverse)).reverse

/-- The running maximum of the name lengths (in characters), as folded by
the single-byte prefix scan. -/
def maxLen (names : List (List Char)) : Nat :=
  names.foldl (fun a t => max a t.length) 0

/-- The maximum of the byte lengths of a list of names, 0 when empty
(`iter().map(|x| x.group.len()).max().unwrap_or(0)` of src/lib.rs line
480). -/
def maxBytes (names : List (List Char)) : Nat :=
  names.foldl (fun a t => max a (byteLen t)) 0

/-- u is an initial segment of t. -/
def isPre (u t : List Char) : Prop := ∃ v, u ++ v = t

/-- u is a final segment of t. -/
def sufOf (u t : List Char) : Prop := ∃ v, v ++ u = t

/-! ## The TUI consumer: process_as_tui (src/lib.rs lines 375-569) over the
aggregation state of src/collections.rs.

Strings are modelled as ASCII character lists (the source mixes byte and
character indexing, which coincide on ASCII).  Times are abstract
millisecond timestamps passed into each step (the source reads
Instant::now at the corresponding points).  `none` models a panic. -/

/-- Model of `StatusStats` (src/collections.rs lines 7-12). -/
structure StatusStats where
  statuscode : List Char
  start : Nat
  pending : Nat
  ring : RingbufferSpeedometer
  deriving DecidableEq

/-- Model of `StatusStats::new` (lines 14-22): a fresh ring of capacity 5,
zero pending, sampling window starting now. -/
def StatusStats.new (code : List Char) (now : Nat) : StatusStats :=
  ⟨code, now, 0, ⟨5, []⟩⟩

/-- Model of `StatusStats::process` (lines 23-31): a zero-elapsed tick is a
no-op; otherwise the pending count over the elapsed time is folded into
the ring and the window restarts. -/
def StatusStats.process (s : StatusStats) (now : Nat) : StatusStats :=
  if now - s.start = 0 then s
  else ⟨s.statuscode, now, 0, s.ring.add_measurement (now - s.start) s.pending⟩

/-- Model of `GroupStats` (src/collections.rs lines 51-55); the shared
global status-code list lives in the consumer state. -/
structure GroupStats where
  group : List Char
  stats : List StatusStats
  deriving DecidableEq

/-- Model of `GroupStats::process` (lines 78-82). -/
def GroupStats.process (g : GroupStats) (now : Nat) : GroupStats :=
  ⟨g.group, g.stats.map (fun s => s.process now)⟩

/-- Lexicographic order on ASCII strings, as used by `Vec::sort`. -/
def strLe : List Char → List Char → Bool
  | [], _ => true
  | _ :: _, [] => false
  | a :: as, b :: bs => if a = b then strLe as bs else decide (a < b)

/-- One insertion step of a stable insertion sort. -/
def insertSorted {α : Type} (le : α → α → Bool) (x : α) : List α → List α
  | [] => [x]
  | y :: ys => if le x y then x :: y :: ys else y :: insertSorted le x ys

/-- Model of `Vec::sort` on strings (a sort by the lexicographic order;
the claims only inspect the resulting order, not the algorithm). -/
def sortStrs (l : List (List Char)) : List (List Char) :=
  l.foldr (insertSorted strLe) []

/-- Model of `Vec::sort` on StatusStats, ordered by status code
(`impl Ord for StatusStats`, src/collections.rs lines 34-38). -/
def sortStats (l : List StatusStats) : List StatusStats :=
  l.foldr (insertSorted (fun a b => strLe a.statuscode b.statuscode)) []

/-- Model of `Vec::dedup`: collapse consecutive duplicates. -/
def dedupStrs : List (List Char) → List (List Char)
  | [] => []
  | [x] => [x]
  | x :: y :: rest =>
    if x = y then dedupStrs (y :: rest) else x :: dedupStrs (y :: rest)

/-- Model of `GroupStats::get_or_create` (src/collections.rs lines 64-77)
together with its update of the global status-code list: find the entry by
linear scan, otherwise register the code globally (push, sort, dedup),
push a fresh entry and sort.  The returned index models the
`self.stats.last_mut().unwrap()` of the source: the LAST entry of the
sorted list, which is not necessarily the entry just created. -/
def GroupStats.get_or_create (g : GroupStats) (code : List Char) (now : Nat)
    (global : List (List Char)) : GroupStats × List (List Char) × Nat :=
  match g.stats.findIdx? (fun x => decide (x.statuscode = code)) with
  | some i => (g, global, i)
  | none =>
    let global2 := dedupStrs (sortStrs (global ++ [code]))
    let stats2 := sortStats (g.stats ++ [StatusStats.new code now])
    (⟨g.group, stats2⟩, global2, stats2.length - 1)

/-- Model of `GroupMap::get_or_create` (src/collections.rs lines 105-115):
find the group by linear scan, otherwise push it (groups are not sorted,
so the last entry really is the new one) and recompute the shared strings,
which can panic (`none`). -/
def groupsGetOrCreate (groups : List GroupStats) (pre suf tag : List Char) :
    Option (List GroupStats × List Char × List Char × Nat) :=
  match groups.findIdx? (fun g => decide (g.group = tag)) with
  | some i => some (groups, pre, suf, i)
  | none =>
    let groups2 := groups ++ [⟨tag, []⟩]
    match update_trimmed_tags (groups2.map (fun g => g.group)) pre suf with
    | none => none
    | some ps => some (groups2, ps.1, ps.2, groups2.length - 1)

/-- The consumer-owned state of `process_as_tui` (src/lib.rs lines
381-397): the group map with its shared strings, the global status-code
list, the pending raw lines with their status buckets, the skip counter,
the last printed stats text, the erase count and the effective width. -/
structure TuiState where
  groups : List GroupStats
  sharedPre : List Char
  sharedSuf : List Char
  globalCodes : List (List Char)
  pending_lines : List (List Char × Option (List Char))
  lines_skipped : Nat
  lastprinted_stats : List Char
  lines_to_wipe : Nat
  cut_width : Nat
  deriving DecidableEq

/-- The initial consumer state with a fixed width. -/
def initTui (w : Nat) : TuiState := ⟨[], [], [], [], [], 0, [], 0, w⟩

/-- Model of `Message` (src/lib.rs lines 230-242). -/
inductive Message where
  | Print (include_lines : Bool)
  | RegisterGroup (tag : List Char)
  | Line (text : List Char) (updowngroup : List Char)
      (leftrightgroup : Option (List Char)) (statuscode : Option (List Char))
  | WinCh (w : Nat)

/-- Rust `str::starts_with` on ASCII strings. -/
def strStartsWith (s p : List Char) : Bool := decide (s.take p.length = p)

/-- The `Line` arm of the consumer loop (src/lib.rs lines 414-439):
accounting always happens first (the matching pending counter is bumped
through the index returned by get_or_create); then, when a filter list is
configured and the status code matches no filter, the line is dropped from
raw display; otherwise it is queued, evicting the oldest entry when the
queue is at capacity (`target_height - number of groups - 2`, computed
before this message's accounting, modelling the u16 arithmetic of the
source on heights large enough not to underflow). -/
def stepLine (filters : List (List Char)) (target_height : Nat) (st : TuiState)
    (now : Nat) (text updowngroup : List Char)
    (leftrightgroup statuscode : Option (List Char)) : Option TuiState :=
  let number_of_lines := target_height - st.groups.length - 2
  let acct : Option TuiState :=
    match leftrightgroup with
    | none => some st
    | some lr =>
      match groupsGetOrCreate st.groups st.sharedPre st.sharedSuf updowngroup with
      | none => none
      | some (groups2, pre2, suf2, gi) =>
        match groups2[gi]? with
        | none => none
        | some g =>
          match GroupStats.get_or_create g lr now st.globalCodes with
          | (g2, global2, si) =>
            match g2.stats[si]? with
            | none => none
            | some ss =>
              some { st with
                groups := groups2.set gi
                  ⟨g2.group, g2.stats.set si ⟨ss.statuscode, ss.start, ss.pending + 1, ss.ring⟩⟩,
                sharedPre := pre2,
                sharedSuf := suf2,
                globalCodes := global2 }
  match acct with
  | none => none
  | some st2 =>
    if !filters.isEmpty && statuscode.isSome &&
        !(filters.any (fun f => strStartsWith (statuscode.getD []) f)) then
      some st2
    else
      if number_of_lines ≤ st2.pending_lines.length then
        some { st2 with
          pending_lines := st2.pending_lines.tail ++ [(text, leftrightgroup)],
          lines_skipped := st2.lines_skipped + 1 }
      else
        some { st2 with pending_lines := st2.pending_lines ++ [(text, leftrightgroup)] }

/-- Decimal digits of a number. -/
def natToChars (n : Nat) : List Char := (Nat.repr n).data

/-- Rendering of `{:7.1}` applied to a finite f32 speed: one decimal
digit, right-aligned to width 7.  This approximates the decimal
formatting of the Rust standard library (rounding half up on the exact
rational); the claims below never depend on the digits produced. -/
def fmtSpeed (q : ℚ) : List Char :=
  let tenths := (q * 10 + 1 / 2).floor.toNat
  let digits := natToChars (tenths / 10) ++ '.' :: natToChars (tenths % 10)
  List.replicate (7 - digits.length) ' ' ++ digits

/-- Rendering of `{:7.1}` applied to an f32 value. -/
def fmtF32 : F32 → List Char
  | F32.finite m e => fmtSpeed (F32Rat m e)
  | F32.inf => List.replicate 4 ' ' ++ str "inf"
  | F32.ninf => List.replicate 3 ' ' ++ str "-inf"
  | F32.nan => List.replicate 4 ' ' ++ str "NaN"

/-- Sequence a list of fallible computations, stopping at the first
panic, as a sequence of Rust statements would. -/
def seqOpt {α : Type} : List (Option α) → Option (List α)
  | [] => some []
  | none :: _ => none
  | some x :: rest => (seqOpt rest).map (fun r => x :: r)

/-- One populated cell of the stats row: the format
`{:7.1} [{color}{code}{reset}] ` of src/lib.rs lines 518-522; `none`
models get_speed panicking on a u32 sum overflow. -/
def statsCell (ss : StatusStats) : Option (List Char) :=
  (ss.ring.get_speed).map (fun sp =>
    fmtF32 sp ++ (' ' :: '[' :: []) ++
      (code2color ss.statuscode).1 ++ ss.statuscode ++ (code2color ss.statuscode).2 ++
      (']' :: ' ' :: []))

/-- One blank, width-matched placeholder cell (`{:7}  {}  ` with the
status code's byte count of spaces), as in the release build (src/lib.rs
lines 528-532). -/
def placeCell (code : List Char) : List Char :=
  List.replicate 7 ' ' ++ str "  " ++ List.replicate (byteLen code) ' ' ++ str "  "

/-- The merge-join of src/lib.rs lines 505-534: walk the global sorted
status codes; where the group's own sorted stats carry the code, emit its
cell and advance, otherwise emit a placeholder. -/
def mergeCells : List (List Char) → List StatusStats → Option (List Char)
  | [], _ => some []
  | code :: gcs, [] => (mergeCells gcs []).map (fun r => placeCell code ++ r)
  | code :: gcs, ss :: srest =>
    if ss.statuscode = code then
      match statsCell ss with
      | none => none
      | some cell => (mergeCells gcs srest).map (fun r => cell ++ r)
    else (mergeCells gcs (ss :: srest)).map (fun r => placeCell code ++ r)

/-- One stats row (src/lib.rs lines 485-535): the group name with the
shared prefix and suffix stripped by byte-index slicing and padded, then
the merged cells.  `none` models the panics of the source: the repeat
count `padded_group_length - 1` underflowing when the padded width is 0,
the slice `group[prefix_len .. len - suffix_len]` hitting a byte index
inside a multi-byte character, and the width padding underflowing. -/
def groupRow (maxtagname pLen sLen padded : Nat) (global : List (List Char))
    (g : GroupStats) : Option (List Char) :=
  let tag :=
    if byteLen g.group ≤ pLen + sLen then
      (if padded = 0 then none else some ('@' :: List.replicate (padded - 1) ' '))
    else
      match sliceBytes g.group pLen (byteLen g.group - sLen) with
      | none => none
      | some mid =>
        if maxtagname < byteLen g.group then none
        else some (mid ++ List.replicate (maxtagname - byteLen g.group) ' ')
  match tag with
  | none => none
  | some padded_tag =>
    (mergeCells global g.stats).map (fun cells =>
      str "-- " ++ padded_tag ++ (' ' :: []) ++ cells ++ ('\n' :: []))

/-- Trailing-whitespace trim (`toflush_stats.truncate(trim_end().len())`). -/
def trimRight (l : List Char) : List Char :=
  (l.reverse.dropWhile (fun ch => ch.isWhitespace)).reverse

/-- The freshly built stats text of one Print cycle (src/lib.rs lines
479-537), over groups that have already been ticked.  `none` models a
panic: the usize subtraction `maxtagname - shared_prefix_len -
shared_suffix_len`, computed before the loop, underflowing (all lengths
are byte lengths), or any row panicking. -/
def buildStats (groups : List GroupStats) (pre suf : List Char)
    (global : List (List Char)) : Option (List Char) :=
  let maxtagname := max 8 (maxBytes (groups.map (fun g => g.group)))
  if maxtagname < byteLen pre + byteLen suf then none
  else
    let padded := maxtagname - byteLen pre - byteLen suf
    (seqOpt (groups.map (groupRow maxtagname (byteLen pre) (byteLen suf) padded
        global))).map
      (fun rows => trimRight rows.join)

/-- One flushed raw line (src/lib.rs lines 460-472): lines without a
status bucket are wrapped in orange, the text is cut at the effective
width in bytes (0 meaning unlimited) and rendered through the parser's
Display; `none` models the byte cut landing inside a multi-byte
character. -/
def lineFlushEntry (cut_width : Nat) (e : List Char × Option (List Char)) :
    Option (List Char) :=
  let cr := match e.2 with
    | none => (colors.ORANGE, colors.RESET)
    | some _ => (([] : List Char), ([] : List Char))
  (if cut_width ≠ 0 ∧ cut_width < byteLen e.1 then takeBytes e.1 cut_width
   else some e.1).map
    (fun trimmed => cr.1 ++ render true (parse_nginx_line trimmed) ++ cr.2 ++ ('\n' :: []))

/-- The flushed raw-lines text with its sampling footer (src/lib.rs lines
452-477). -/
def buildLines (cut_width : Nat) (pls : List (List Char × Option (List Char)))
    (skipped : Nat) : Option (List Char) :=
  let samplerate := if skipped = 0 then 100 else (100 * pls.length) / (skipped + pls.length)
  (seqOpt (pls.map (lineFlushEntry cut_width))).map
    (fun ls => ls.join ++ (str "-- Output sampled at " ++ natToChars samplerate ++ str "%\n"))

/-- Newline count of the stats text, the erase amount for the next cycle. -/
def countNewlines (l : List Char) : Nat := l.countP (fun ch => decide (ch = '\n'))

/-- The `Print` arm of the consumer loop (src/lib.rs lines 441-565):
flush pending raw lines when requested, tick every group, rebuild the
stats text, and write to the terminal only when raw lines were flushed or
the stats text changed; on a write, emit the cursor wiper (a plain
carriage return plus clear when zero lines must be erased), remember the
stats text and its line count.  The outer `none` models a panic while
building either text (in source order: the raw lines first); the inner
option is the byte stream written, `none` when the write is skipped. -/
def stepPrint (st : TuiState) (include_lines : Bool) (now : Nat) :
    Option (TuiState × Option (List Char)) :=
  let flushing := include_lines && !st.pending_lines.isEmpty
  match
    (if flushing then buildLines st.cut_width st.pending_lines st.lines_skipped
     else some []) with
  | none => none
  | some toflush_lines =>
    let pl2 := if flushing then [] else st.pending_lines
    let sk2 := if flushing then 0 else st.lines_skipped
    let groups2 := st.groups.map (fun g => g.process now)
    match buildStats groups2 st.sharedPre st.sharedSuf st.globalCodes with
    | none => none
    | some toflush_stats =>
      if toflush_lines ≠ [] ∨ toflush_stats ≠ st.lastprinted_stats then
        let wipe := st.lines_to_wipe + (if include_lines then 1 else 0)
        let wiper :=
          if wipe = 0 then '\r' :: (colors.CSI ++ ('J' :: []))
          else
            '\r' :: (colors.CSI ++ natToChars wipe ++ ('A' :: []) ++ colors.CSI ++
              ('J' :: []))
        some ({ st with
            groups := groups2,
            pending_lines := pl2,
            lines_skipped := sk2,
            lastprinted_stats := toflush_stats,
            lines_to_wipe := countNewlines toflush_stats },
          some (wiper ++ toflush_lines ++ toflush_stats))
      else
        some ({ st with groups := groups2, pending_lines := pl2, lines_skipped := sk2 },
          none)

/-- One message of the consumer loop; the output component is what was
written to the terminal. -/
def stepMsg (filters : List (List Char)) (target_height : Nat) (st : TuiState)
    (now : Nat) : Message → Option (TuiState × Option (List Char))
  | Message.WinCh w => some ({ st with cut_width := w }, none)
  | Message.RegisterGroup tag =>
    match groupsGetOrCreate st.groups st.sharedPre st.sharedSuf tag with
    | none => none
    | some gps => some ({ st with
        groups := gps.1,
        sharedPre := gps.2.1,
        sharedSuf := gps.2.2.1 }, none)
  | Message.Line text ug lr sc =>
    match stepLine filters target_height st now text ug lr sc with
    | none => none
    | some st2 => some (st2, none)
  | Message.Print inc => stepPrint st inc now

/-- The consumer loop over a timestamped message sequence. -/
def runTui (filters : List (List Char)) (target_height : Nat) :
    TuiState → List (Nat × Message) → Option TuiState
  | st, [] => some st
  | st, (now, msg) :: rest =>
    match stepMsg filters target_height st now msg with
    | none => none
    | some st2 => runTui filters target_height st2.1 rest
/-- C6 is refuted by the code: accounting does not always increment the
matching StatusStats counter.  `GroupStats::get_or_create` pushes the new
entry, sorts, and returns `last_mut()`; when the new code sorts before an
existing one, the returned reference is a different entry.  With no
filters configured, a line for the existing bucket 500 followed by a line
for the new bucket 200 leaves 200's pending counter at zero and bumps
500's to two, where the claim requires one each. -/
theorem claim_C6_misdirected_increment :
    (runTui [] 20 (initTui 0)
        [(0, Message.Line (str "a") (str "g") (some (str "500")) (some (str "500"))),
          (1, Message.Line (str "b") (str "g") (some (str "200")) (some (str "200")))]).map
      (fun st => st.groups.map (fun g => g.stats.map (fun s => (s.statuscode, s.pending)))) =
      some [[(str "200", 0), (str "500", 2)]] := by
  decide

/-! ## Theorems -/

theorem takeUntil_recon (stop : Char) (cs : List Char) :
    cs = (takeUntil stop cs).1 ++ ((takeUntil stop cs).2.elim [] (stop :: ·)) := by
  induction cs with
  | nil => simp [takeUntil]
  | cons c rest ih =>
    by_cases hc : c = stop
    · simp [takeUntil, hc]
    · simp only [takeUntil, if_neg hc]
      simpa using ih

theorem takeUntil_none {stop : Char} {cs f : List Char}
    (h : takeUntil stop cs = (f, none)) : f = cs := by
  have hr := takeUntil_recon stop cs
  rw [h] at hr
  simpa using hr.symm

theorem takeUntil_some {stop : Char} {cs f r : List Char}
    (h : takeUntil stop cs = (f, some r)) : cs = f ++ stop :: r := by
  have hr := takeUntil_recon stop cs
  rw [h] at hr
  simpa using hr

/-- Combined structural facts about `parse_nginx_line`: the concatenation
law, the color-free rendering law, and the left-to-right population of
the separator fields.  Proved by walking the same case structure as the
parser itself. -/
theorem parse_nginx_line_spec (s : List Char) :
    cat (parse_nginx_line s) = s ∧ render false (parse_nginx_line s) = s ∧
      sepChain (parse_nginx_line s) := by
  unfold parse_nginx_line
  rcases h1 : takeUntil '[' s with ⟨h, r1⟩
  rcases r1 with _ | r1
  · simp [h1, takeUntil_none h1, cat, render, ocat, sepChain, methodText]
  · have hs1 := takeUntil_some h1
    subst hs1
    rcases h2 : takeUntil ']' r1 with ⟨d, r2⟩
    rcases r2 with _ | r2
    · simp [h1, h2, takeUntil_none h2, cat, render, ocat, sepChain, methodText]
    · have hs2 := takeUntil_some h2
      subst hs2
      rcases r2 with _ | ⟨c, r3⟩
      · simp [h1, h2, cat, render, ocat, sepChain, methodText]
      · by_cases hc : c = ' '
        · subst hc
          rcases h3 : takeUntil '"' r3 with ⟨mid, r4⟩
          rcases r4 with _ | r4
          · simp [h1, h2, h3, takeUntil_none h3, cat, render, ocat, sepChain,
              methodText]
          · have hs3 := takeUntil_some h3
            subst hs3
            rcases h4 : takeUntil ' ' r4 with ⟨m, r5⟩
            rcases r5 with _ | r5
            · simp [h1, h2, h3, h4, takeUntil_none h4, cat, render, ocat, sepChain,
                methodText]
            · have hs4 := takeUntil_some h4
              subst hs4
              rcases h5 : takeUntil ' ' r5 with ⟨u, r6⟩
              rcases r6 with _ | r6
              · simp [h1, h2, h3, h4, h5, takeUntil_none h5, cat, render, ocat, sepChain,
                  methodText]
              · have hs5 := takeUntil_some h5
                subst hs5
                rcases h6 : takeUntil '"' r6 with ⟨p, r7⟩
                rcases r7 with _ | r7
                · simp [h1, h2, h3, h4, h5, h6, takeUntil_none h6, cat, render, ocat,
                    sepChain, methodText]
                · have hs6 := takeUntil_some h6
                  subst hs6
                  rcases r7 with _ | ⟨c2, r8⟩
                  · simp [h1, h2, h3, h4, h5, h6, cat, render, ocat, sepChain, methodText,
                      statusText]
                  · by_cases hc2 : c2 = ' '
                    · subst hc2
                      rcases h7 : takeUntil ' ' r8 with ⟨sc, r9⟩
                      rcases r9 with _ | r9
                      · simp [h1, h2, h3, h4, h5, h6, h7, takeUntil_none h7, cat, render,
                          ocat, sepChain, methodText, statusText]
                      · have hs7 := takeUntil_some h7
                        subst hs7
                        simp [h1, h2, h3, h4, h5, h6, h7, cat, render, ocat, sepChain,
                          methodText, statusText]
                    · simp [h1, h2, h3, h4, h5, h6, hc2, cat, render, ocat, sepChain,
                        methodText, statusText]
        · simp [h1, h2, hc, cat, render, ocat, sepChain, methodText]

/-- C1: for every input string, formatting the parsed line via the Display
implementation and stripping the inserted color escape sequences (the
highlight around a POST method, the color around the status code)
reproduces the input byte for byte; equivalently, concatenating head, each
present separator and its field in order, with tail appended, yields the
input exactly. -/
theorem claim_C1_round_trip (s : List Char) :
    render false (parse_nginx_line s) = s ∧ cat (parse_nginx_line s) = s :=
  ⟨(parse_nginx_line_spec s).2.1, (parse_nginx_line_spec s).1⟩

/-- Witness for C1 at a concrete truncated input. -/
theorem claim_C1_round_trip_witness :
    render false (parse_nginx_line (str "v2 1.2.3.4 [26/May/2025] x")) =
      str "v2 1.2.3.4 [26/May/2025] x" :=
  (claim_C1_round_trip (str "v2 1.2.3.4 [26/May/2025] x")).1

/-- C2: parse_nginx_line is total - it is a plain total function in this
model, mirroring the source, which has no panicking operation - and drops
no bytes: every input character ends up in some field, separator or the
tail, and the separator fields are populated strictly left to right, so
they are `none` exactly from the point where parsing ran out of expected
delimiters. -/
theorem claim_C2_total_no_drop (s : List Char) :
    cat (parse_nginx_line s) = s ∧ sepChain (parse_nginx_line s) :=
  ⟨(parse_nginx_line_spec s).1, (parse_nginx_line_spec s).2.2⟩

/-- Witness for C2 at a concrete malformed input. -/
theorem claim_C2_total_no_drop_witness :
    cat (parse_nginx_line (str "no structure at all")) = str "no structure at all" :=
  (claim_C2_total_no_drop (str "no structure at all")).1

theorem feedRing_window {N : Nat} (hN : 1 ≤ N) :
    ∀ (ms acc : List (Nat × Nat)), acc.length ≤ N →
      feedRing ⟨N, acc⟩ ms = ⟨N, (acc ++ ms).drop (acc.length + ms.length - N)⟩ := by
  intro ms
  induction ms with
  | nil =>
    intro acc hacc
    simp [feedRing, Nat.sub_eq_zero_of_le hacc]
  | cons x ms ih =>
    intro acc hacc
    by_cases hfull : acc.length = N
    · rcases acc with _ | ⟨a, t⟩
      · simp at hfull; omega
      · have hstep : feedRing ⟨N, a :: t⟩ (x :: ms) =
            feedRing ⟨N, t ++ [(x.1, x.2)]⟩ ms := by
          simp only [feedRing, List.foldl_cons]
          simp [RingbufferSpeedometer.add_measurement, hfull]
        rw [hstep]
        have hlen : (t ++ [(x.1, x.2)]).length ≤ N := by
          simp at hfull ⊢; omega
        rw [ih (t ++ [(x.1, x.2)]) hlen]
        have e1 : (t ++ [(x.1, x.2)]).length + ms.length - N = ms.length := by
          simp at hfull ⊢; omega
        have e2 : (a :: t).length + (x :: ms).length - N = ms.length + 1 := by
          simp at hfull ⊢; omega
        rw [e1, e2]
        simp
    · have hlt : acc.length < N := lt_of_le_of_ne hacc hfull
      have hstep : feedRing ⟨N, acc⟩ (x :: ms) =
          feedRing ⟨N, acc ++ [(x.1, x.2)]⟩ ms := by
        simp only [feedRing, List.foldl_cons]
        simp [RingbufferSpeedometer.add_measurement, hfull]
      rw [hstep]
      have hlen : (acc ++ [(x.1, x.2)]).length ≤ N := by simp; omega
      rw [ih (acc ++ [(x.1, x.2)]) hlen]
      have e1 : (acc ++ [(x.1, x.2)]).length + ms.length - N =
          acc.length + (x :: ms).length - N := by simp; omega
      rw [e1]
      simp

theorem sumNat_acc (ms : List (Nat × Nat)) :
    ∀ a : Nat × Nat, ms.foldl (fun st e => (st.1 + e.1, st.2 + e.2)) a =
      (a.1 + (sumNat ms).1, a.2 + (sumNat ms).2) := by
  induction ms with
  | nil => intro a; simp [sumNat]
  | cons e ms ih =>
    intro a
    simp only [sumNat, List.foldl_cons]
    rw [ih, ih (0 + e.1, 0 + e.2)]
    simp only [Prod.mk.injEq]
    omega

theorem sumNat_cons (e : Nat × Nat) (ms : List (Nat × Nat)) :
    sumNat (e :: ms) = (e.1 + (sumNat ms).1, e.2 + (sumNat ms).2) := by
  show List.foldl (fun st p => (st.1 + p.1, st.2 + p.2)) (0, 0) (e :: ms) = _
  rw [List.foldl_cons, sumNat_acc ms]
  simp

theorem sumMeasurements_acc (ms : List (Nat × Nat)) :
    ∀ a : Nat × Nat, a.1 + (sumNat ms).1 < 2 ^ 32 → a.2 + (sumNat ms).2 < 2 ^ 32 →
      ms.foldl
          (fun st e => st.bind (fun s =>
            if s.1 + e.1 < 2 ^ 32 ∧ s.2 + e.2 < 2 ^ 32 then some (s.1 + e.1, s.2 + e.2)
            else none))
          (some a) =
        some (a.1 + (sumNat ms).1, a.2 + (sumNat ms).2) := by
  induction ms with
  | nil => intro a h1 h2; simp [sumNat]
  | cons e ms ih =>
    intro a h1 h2
    rw [sumNat_cons] at h1 h2
    dsimp only at h1 h2
    simp only [List.foldl_cons, Option.some_bind]
    rw [if_pos ⟨by omega, by omega⟩]
    have hm := ih (a.1 + e.1, a.2 + e.2) (by dsimp only; omega) (by dsimp only; omega)
    rw [hm]
    rw [sumNat_cons]
    dsimp only
    simp only [Option.some.injEq, Prod.mk.injEq]
    omega

theorem sumMeasurements_eq (ms : List (Nat × Nat))
    (h1 : (sumNat ms).1 < 2 ^ 32) (h2 : (sumNat ms).2 < 2 ^ 32) :
    sumMeasurements ms = some (sumNat ms) := by
  have h := sumMeasurements_acc ms (0, 0) (by simpa using h1) (by simpa using h2)
  simpa [sumMeasurements] using h

/-- C4 as amended: for every capacity N at least 1 (a state accepted by
the constructor) and every measurement sequence, the ring estimator
retains exactly the most recent min(N, number fed) samples - the oldest
is evicted on overflow - and, when the u32 sums over that window stay in
range, get_speed completes and is the f32 evaluation of
sum(count) * 1000.0 / sum(elapsed) over exactly that window, 0 when the
window is empty.  The exact rational equality of the original claim holds
only up to f32 rounding, and without the range condition the u32 sums can
overflow, as the counterexample records. -/
theorem claim_C4_ring_window (N : Nat) (r : RingbufferSpeedometer)
    (h : RingbufferSpeedometer.new N = some r) (ms : List (Nat × Nat))
    (h1 : (sumNat (ms.drop (ms.length - N))).1 < 2 ^ 32)
    (h2 : (sumNat (ms.drop (ms.length - N))).2 < 2 ^ 32) :
    (feedRing r ms).measurements = ms.drop (ms.length - N) ∧
      (feedRing r ms).get_speed =
        some (if ms.drop (ms.length - N) = [] then F32.finite 0 0
          else f32div (f32mul (f32ofNat (sumNat (ms.drop (ms.length - N))).2)
            (F32.finite 1000 0)) (f32ofNat (sumNat (ms.drop (ms.length - N))).1)) := by
  have hN : 1 ≤ N ∧ r = ⟨N, []⟩ := by
    by_cases h0 : N = 0
    · simp [RingbufferSpeedometer.new, h0] at h
    · simp [RingbufferSpeedometer.new, h0] at h
      exact ⟨Nat.one_le_iff_ne_zero.mpr h0, h.symm⟩
  obtain ⟨hge, hr⟩ := hN
  subst hr
  have hw := feedRing_window hge ms [] (by simp)
  simp only [List.nil_append, List.length_nil, Nat.zero_add] at hw
  rw [hw]
  refine ⟨rfl, ?_⟩
  by_cases he : ms.drop (ms.length - N) = []
  · simp [RingbufferSpeedometer.get_speed, he]
  · rw [if_neg he]
    simp only [RingbufferSpeedometer.get_speed]
    rw [if_neg (by simpa using he)]
    rw [sumMeasurements_eq _ h1 h2]
    rfl

/-- Counterexample for C4 as stated: get_speed is not the exact rational
sum(count) * 1000 / sum(elapsed).  One message over 3 milliseconds gives
the correctly rounded f32 10922667 * 2 ^ (-15) = 333.33343505859375, not
the rational 1000 / 3; and the u32 duration sum of the window can
overflow: two (2 ^ 31, 0) samples make the fold panic in a debug build
(wrap in a release build), modelled by `none`. -/
theorem claim_C4_counterexample :
    ((feedRing ⟨1, []⟩ [(3, 1)]).get_speed = some (F32.finite 10922667 (-15)) ∧
        F32Rat 10922667 (-15) ≠ (1 * 1000 : ℚ) / 3) ∧
      (feedRing ⟨2, []⟩ [(2 ^ 31, 0), (2 ^ 31, 0)]).get_speed = none := by
  refine ⟨⟨by decide, ?_⟩, by decide⟩
  norm_num [F32Rat]

/-- Witness for C4: capacity 2 fed three in-range measurements retains
exactly the last two. -/
theorem claim_C4_ring_window_witness :
    (feedRing ⟨2, []⟩ [(100, 10), (150, 30), (1000, 0)]).measurements =
      [(100, 10), (150, 30), (1000, 0)].drop
        ([(100, 10), (150, 30), (1000, 0)].length - 2) :=
  (claim_C4_ring_window 2 ⟨2, []⟩ (by decide) [(100, 10), (150, 30), (1000, 0)]
    (by decide) (by decide)).1

/-- C10: constructing a ring speedometer with capacity 0 is rejected by the
constructor assertion, and for capacity at least 1 the retained-sample
bound (at most capacity measurements) is preserved by add_measurement,
which also leaves the capacity unchanged. -/
theorem claim_C10_capacity_invariant :
    RingbufferSpeedometer.new 0 = none ∧
      ∀ (s : RingbufferSpeedometer) (duration msgs : Nat), 1 ≤ s.capacity →
        s.measurements.length ≤ s.capacity →
        (s.add_measurement duration msgs).measurements.length ≤ s.capacity ∧
          (s.add_measurement duration msgs).capacity = s.capacity := by
  refine ⟨by simp [RingbufferSpeedometer.new], ?_⟩
  intro s duration msgs hcap hlen
  by_cases hfull : s.measurements.length = s.capacity
  · constructor
    · simp only [RingbufferSpeedometer.add_measurement, if_pos hfull]
      have ht := List.length_tail s.measurements
      simp only [List.length_append, List.length_cons, List.length_nil]
      omega
    · simp [RingbufferSpeedometer.add_measurement, hfull]
  · constructor
    · simp only [RingbufferSpeedometer.add_measurement, if_neg hfull]
      simp only [List.length_append, List.length_cons, List.length_nil]
      omega
    · simp [RingbufferSpeedometer.add_measurement, hfull]

/-- Witness for C10: a full capacity-1 buffer stays within its bound. -/
theorem claim_C10_capacity_invariant_witness :
    (RingbufferSpeedometer.add_measurement ⟨1, [(5, 5)]⟩ 7 7).measurements.length ≤ 1 :=
  (claim_C10_capacity_invariant.2 ⟨1, [(5, 5)]⟩ 7 7 (by decide) (by decide)).1

theorem smoother_skip_of_nonfinite (s : SmootherSpeedometer) (d k : Nat)
    (h : (instantRate d k).isNaN = true ∨ (instantRate d k).isInfinite = true) :
    s.add_measurement d k = s := by
  unfold SmootherSpeedometer.add_measurement
  rcases h with h | h
  · simp [h]
  · rcases hn : (instantRate d k).isNaN with _ | _
    · simp [hn, h]
    · simp [hn]

theorem instantRate_zero_nonfinite (k : Nat) :
    (instantRate 0 k).isNaN = true ∨ (instantRate 0 k).isInfinite = true := by
  have h0 : f32ofNat 0 = F32.finite 0 0 := by decide
  unfold instantRate
  rw [h0]
  rcases hA : f32mul (f32ofNat k) (F32.finite 1000 0) with ⟨m, e⟩ | _ | _ | _
  · by_cases hm : m = 0
    · simp [f32div, hm, F32.isNaN]
    · by_cases hmp : 0 < m
      · simp [f32div, hm, hmp, F32.isInfinite]
      · simp [f32div, hm, hmp, F32.isInfinite]
  · simp [f32div, F32.isInfinite]
  · simp [f32div, F32.isInfinite]
  · simp [f32div, F32.isNaN]

theorem smoother_zero_skip (s : SmootherSpeedometer) (k : Nat) :
    s.add_measurement 0 k = s :=
  smoother_skip_of_nonfinite s 0 k (instantRate_zero_nonfinite k)

/-- C5 as amended: a measurement with elapsed time 0 leaves the whole
state unchanged - for every message count the f32 instant rate is then
NaN (0/0) or an infinity, and the source discards it - even in the middle
of an arbitrary sequence; more generally every NaN or infinite instant
rate is discarded, and when the rate is finite the stored speed becomes
the f32 evaluation of factor * instant + (1 - factor) * previous.  The
final sentence of the claim (get_speed never returns a non-finite value)
is false: the update itself can overflow and store an infinity, as the
counterexample shows. -/
theorem claim_C5_smoother_guard (s : SmootherSpeedometer) (duration msgs k : Nat)
    (ms1 ms2 : List (Nat × Nat)) :
    s.add_measurement 0 msgs = s ∧
      feedSmoother s (ms1 ++ (0, k) :: ms2) = feedSmoother s (ms1 ++ ms2) ∧
      ((instantRate duration msgs).isNaN = true ∨
          (instantRate duration msgs).isInfinite = true →
        s.add_measurement duration msgs = s) ∧
      ((instantRate duration msgs).isNaN = false →
        (instantRate duration msgs).isInfinite = false →
        (s.add_measurement duration msgs).get_speed =
          f32add (f32mul s.smooth_factor (instantRate duration msgs))
            (f32mul (f32sub (F32.finite 1 0) s.smooth_factor) s.speed) ∧
          (s.add_measurement duration msgs).smooth_factor = s.smooth_factor) := by
  refine ⟨smoother_zero_skip s msgs, ?_, smoother_skip_of_nonfinite s duration msgs, ?_⟩
  · simp [feedSmoother, List.foldl_append, smoother_zero_skip]
  · intro hn hi
    unfold SmootherSpeedometer.add_measurement
    simp [hn, hi, SmootherSpeedometer.get_speed]

/-- Counterexample for C5 as stated: get_speed can return a non-finite
value.  With smoothing factor 2 ^ 100 = 8388608 * 2 ^ 77 (an exactly
representable f32 near 1.27e30) and two ordinary measurements, the second
update computes (1 - 2 ^ 100) * previous = -25 * 2 ^ 202, which overflows
f32 to negative infinity, and the stored speed becomes -inf: the source
guards only the instant rate, never the smoothed result. -/
theorem claim_C5_counterexample :
    (feedSmoother ⟨F32.finite 0 0, F32.finite 8388608 77⟩
        [(100, 10), (150, 30)]).get_speed = F32.ninf ∧
      F32.isInfinite
        (feedSmoother ⟨F32.finite 0 0, F32.finite 8388608 77⟩
          [(100, 10), (150, 30)]).get_speed = true := by
  decide

/-- Witness for C5: a zero-elapsed measurement inside a sequence is a
no-op and a finite instant rate applies the f32 smoothing formula. -/
theorem claim_C5_smoother_guard_witness :
    feedSmoother ⟨F32.finite 0 0, F32.finite 8388608 (-24)⟩
        [(100, 10), (0, 9), (150, 30)] =
      feedSmoother ⟨F32.finite 0 0, F32.finite 8388608 (-24)⟩ [(100, 10), (150, 30)] ∧
      (SmootherSpeedometer.add_measurement ⟨F32.finite 0 0, F32.finite 8388608 (-24)⟩
          100 10).get_speed =
        f32add (f32mul (F32.finite 8388608 (-24)) (instantRate 100 10))
          (f32mul (f32sub (F32.finite 1 0) (F32.finite 8388608 (-24)))
            (F32.finite 0 0)) :=
  ⟨(claim_C5_smoother_guard ⟨F32.finite 0 0, F32.finite 8388608 (-24)⟩ 100 10 9
      [(100, 10)] [(150, 30)]).2.1,
    ((claim_C5_smoother_guard ⟨F32.finite 0 0, F32.finite 8388608 (-24)⟩ 100 10 9
        [] []).2.2.2 (by decide) (by decide)).1⟩

theorem smootherOutputs_c9_reps :
    smootherOutputs (SmootherSpeedometer.new (F32.finite 8388608 (-24))) c9Inputs =
      [F32.finite 13107200 (-18), F32.finite 16384000 (-17), F32.finite 16384000 (-18),
        F32.finite 16384000 (-19), F32.finite 16384000 (-20), F32.finite 16384000 (-21),
        F32.finite 16384000 (-22), F32.finite 16384000 (-23), F32.finite 16384000 (-24),
        F32.finite 16384000 (-25), F32.finite 16384000 (-26),
        F32.finite 16384000 (-27)] := by
  decide

theorem smootherOutputs_c9_eval :
    (smootherOutputs (SmootherSpeedometer.new (F32.finite 8388608 (-24))) c9Inputs).map
        F32.toRat =
      [some 50, some 125, some 62.5, some 31.25, some 15.625, some 7.8125,
        some 3.90625, some 1.953125, some 0.9765625, some 0.48828125,
        some 0.244140625, some 0.1220703125] := by
  rw [smootherOutputs_c9_reps]
  norm_num [F32.toRat, F32Rat]

/-- Counterexample for C9 as stated: the final value of the sequence is
125/1024 = 0.1220703125 exactly, not the decimal 0.122070313 that the
claim lists (that decimal is the shortest 9-digit rendering of the f32
value, not the value itself). -/
theorem claim_C9_counterexample :
    (smootherOutputs (SmootherSpeedometer.new (F32.finite 8388608 (-24))) c9Inputs).map
        F32.toRat ≠
      [some 50, some 125, some 62.5, some 31.25, some 15.625, some 7.8125,
        some 3.90625, some 1.953125, some 0.9765625, some 0.48828125,
        some 0.244140625, some 0.122070313] := by
  rw [smootherOutputs_c9_eval]
  norm_num

/-- C9 as amended: the smoother with f32 factor 0.5 fed (100,10), (150,30)
and then ten (1000,0) measurements reports f32 values that are exactly 50,
125, 62.5, 31.25, 15.625, 7.8125, 3.90625, 1.953125, 0.9765625,
0.48828125, 0.244140625, 0.1220703125 in order (every operation of this
run is exactly representable, so no rounding error accumulates) - the last
value differing from the rounded decimal 0.122070313 of the claim, which
denotes the same f32 bit pattern. -/
theorem claim_C9_smoother_sequence :
    (smootherOutputs (SmootherSpeedometer.new (F32.finite 8388608 (-24))) c9Inputs).map
        F32.toRat =
      [some 50, some 125, some 62.5, some 31.25, some 15.625, some 7.8125,
        some 3.90625, some 1.953125, some 0.9765625, some 0.48828125,
        some 0.244140625, some 0.1220703125] :=
  smootherOutputs_c9_eval

theorem isPre_antisymm {a b : List Char} (h1 : isPre a b) (h2 : isPre b a) : a = b := by
  obtain ⟨v, hv⟩ := h1
  obtain ⟨w, hw⟩ := h2
  have hlen : a.length + v.length = b.length := by
    rw [← hv]; simp
  have hlen2 : b.length + w.length = a.length := by
    rw [← hw]; simp
  have hv0 : v = [] := by
    have : v.length = 0 := by omega
    simpa using this
  rw [hv0] at hv
  simpa using hv

theorem isPre_trans {a b c : List Char} (h1 : isPre a b) (h2 : isPre b c) : isPre a c := by
  obtain ⟨v, hv⟩ := h1
  obtain ⟨w, hw⟩ := h2
  exact ⟨v ++ w, by rw [← hw, ← hv]; simp⟩

theorem isPre_length {u t : List Char} (h : isPre u t) : u.length ≤ t.length := by
  obtain ⟨v, hv⟩ := h
  rw [← hv]; simp

theorem isPre_take (t : List Char) (n : Nat) : isPre (t.take n) t :=
  ⟨t.drop n, t.take_append_drop n⟩

theorem isPre_getElem {u t : List Char} (h : isPre u t) {j : Nat} (hj : j < u.length) :
    t[j]? = u[j]? := by
  obtain ⟨v, hv⟩ := h
  rw [← hv]
  exact List.getElem?_append_left hj

theorem take_eq_of_isPre {u t : List Char} (h : isPre u t) : t.take u.length = u := by
  obtain ⟨v, hv⟩ := h
  rw [← hv]
  exact List.take_left u v

theorem lcp2_isPre_left : ∀ a b : List Char, isPre (lcp2 a b) a := by
  intro a
  induction a with
  | nil => intro b; exact ⟨[], by cases b <;> simp [lcp2]⟩
  | cons x as ih =>
    intro b
    cases b with
    | nil => exact ⟨x :: as, by simp [lcp2]⟩
    | cons y bs =>
      by_cases hxy : x = y
      · subst hxy
        obtain ⟨v, hv⟩ := ih bs
        exact ⟨v, by rw [lcp2]; simp [hv]⟩
      · exact ⟨x :: as, by rw [lcp2]; simp [hxy]⟩

theorem lcp2_isPre_right : ∀ a b : List Char, isPre (lcp2 a b) b := by
  intro a
  induction a with
  | nil => intro b; exact ⟨b, by cases b <;> simp [lcp2]⟩
  | cons x as ih =>
    intro b
    cases b with
    | nil => exact ⟨[], by simp [lcp2]⟩
    | cons y bs =>
      by_cases hxy : x = y
      · subst hxy
        obtain ⟨v, hv⟩ := ih bs
        exact ⟨v, by rw [lcp2]; simp [hv]⟩
      · exact ⟨y :: bs, by rw [lcp2]; simp [hxy]⟩

theorem isPre_lcp2 : ∀ (u a b : List Char), isPre u a → isPre u b → isPre u (lcp2 a b) := by
  intro u
  induction u with
  | nil => intro a b _ _; exact ⟨lcp2 a b, by simp⟩
  | cons x us ih =>
    intro a b ha hb
    obtain ⟨v, hv⟩ := ha
    obtain ⟨w, hw⟩ := hb
    rcases a with _ | ⟨y, as⟩
    · simp at hv
    · rcases b with _ | ⟨z, bs⟩
      · simp at hw
      · simp at hv hw
        obtain ⟨hxy, hva⟩ := hv
        obtain ⟨hxz, hwb⟩ := hw
        subst hxy
        subst hxz
        obtain ⟨r, hr⟩ := ih as bs ⟨v, hva⟩ ⟨w, hwb⟩
        refine ⟨r, ?_⟩
        rw [lcp2]
        simp [hr]

theorem foldl_lcp2_isPre_acc : ∀ (rest : List (List Char)) (acc : List Char),
    isPre (rest.foldl lcp2 acc) acc := by
  intro rest
  induction rest with
  | nil => intro acc; exact ⟨[], by simp⟩
  | cons t rest ih =>
    intro acc
    exact isPre_trans (ih (lcp2 acc t)) (lcp2_isPre_left acc t)

theorem foldl_lcp2_isPre_mem : ∀ (rest : List (List Char)) (acc t : List Char),
    t ∈ rest → isPre (rest.foldl lcp2 acc) t := by
  intro rest
  induction rest with
  | nil => intro acc t ht; simp at ht
  | cons s rest ih =>
    intro acc t ht
    rcases List.mem_cons.mp ht with he | hm
    · subst he
      exact isPre_trans (foldl_lcp2_isPre_acc rest (lcp2 acc t)) (lcp2_isPre_right acc t)
    · exact ih (lcp2 acc s) t hm

theorem isPre_foldl_lcp2 : ∀ (rest : List (List Char)) (acc u : List Char),
    isPre u acc → (∀ t ∈ rest, isPre u t) → isPre u (rest.foldl lcp2 acc) := by
  intro rest
  induction rest with
  | nil => intro acc u h _; exact h
  | cons s rest ih =>
    intro acc u hacc hall
    exact ih (lcp2 acc s) u (isPre_lcp2 u acc s hacc (hall s (by simp)))
      (fun t ht => hall t (by simp [ht]))

theorem specLcp_isPre {first : List Char} {rest : List (List Char)} :
    ∀ t ∈ first :: rest, isPre (specLcp (first :: rest)) t := by
  intro t ht
  rcases List.mem_cons.mp ht with he | hm
  · subst he
    simpa [specLcp] using foldl_lcp2_isPre_acc rest t
  · simpa [specLcp] using foldl_lcp2_isPre_mem rest first t hm

theorem isPre_specLcp {first u : List Char} {rest : List (List Char)}
    (h : ∀ t ∈ first :: rest, isPre u t) : isPre u (specLcp (first :: rest)) := by
  have hall : ∀ t ∈ rest, isPre u t := fun t ht => h t (by simp [ht])
  simpa [specLcp] using isPre_foldl_lcp2 rest first u (h first (by simp)) hall
theorem scanAtC_true_iff (ci : Option Char) (i : Nat) :
    ∀ (tags : List (List Char)) (m : Nat),
      (scanAtC ci i m tags).2 = true ↔ ∀ t ∈ tags, t[i]? = ci := by
  intro tags
  induction tags with
  | nil => intro m; simp [scanAtC]
  | cons t rest ih =>
    intro m
    by_cases h : t[i]? = ci
    · simp [scanAtC, h, ih]
    · simp [scanAtC, h]

theorem scanAtC_fst_of_true (ci : Option Char) (i : Nat) :
    ∀ (tags : List (List Char)) (m : Nat), (scanAtC ci i m tags).2 = true →
      (scanAtC ci i m tags).1 = tags.foldl (fun a t => max a t.length) m := by
  intro tags
  induction tags with
  | nil => intro m _; simp [scanAtC]
  | cons t rest ih =>
    intro m h2
    by_cases h : t[i]? = ci
    · simp only [scanAtC, if_pos h] at h2 ⊢
      simp [ih _ h2]
    · simp [scanAtC, h] at h2

theorem scanAtC_fst_stable (ci : Option Char) (i : Nat) :
    ∀ (tags : List (List Char)) (m : Nat), (∀ t ∈ tags, t.length ≤ m) →
      (scanAtC ci i m tags).1 = m := by
  intro tags
  induction tags with
  | nil => intro m _; simp [scanAtC]
  | cons t rest ih =>
    intro m hle
    have hm : max m t.length = m := Nat.max_eq_left (hle t (by simp))
    by_cases h : t[i]? = ci
    · simp [scanAtC, h, hm, ih _ (fun s hs => hle s (by simp [hs]))]
    · simp [scanAtC, h, hm]

theorem prefixScanC_snd_stable (first : List Char) (tags : List (List Char)) :
    ∀ (fuel i : Nat) (pre : List Char) (m : Nat), (∀ t ∈ tags, t.length ≤ m) →
      (prefixScanC first tags i fuel pre m).2 = m := by
  intro fuel
  induction fuel with
  | zero => intro i pre m _; simp [prefixScanC]
  | succ fuel ih =>
    intro i pre m hle
    rcases hsc : scanAtC (first[i]?) i m tags with ⟨m2, b⟩
    have hm2 : m2 = m := by
      have hst := scanAtC_fst_stable (first[i]?) i tags m hle
      rw [hsc] at hst
      exact hst
    subst hm2
    cases b
    · simp [prefixScanC, hsc]
    · simp only [prefixScanC, hsc]
      exact ih (i + 1) _ _ hle

theorem foldl_max_seed_le : ∀ (tags : List (List Char)) (b : Nat),
    b ≤ tags.foldl (fun a s => max a s.length) b := by
  intro tags
  induction tags with
  | nil => intro b; simp
  | cons s rest ih =>
    intro b
    simp only [List.foldl_cons]
    exact le_trans (le_max_left _ _) (ih _)

theorem foldl_max_le_mem : ∀ (tags : List (List Char)) (b : Nat) (t : List Char),
    t ∈ tags → t.length ≤ tags.foldl (fun a s => max a s.length) b := by
  intro tags
  induction tags with
  | nil => intro b t ht; simp at ht
  | cons s rest ih =>
    intro b t ht
    rcases List.mem_cons.mp ht with he | hm
    · subst he
      simp only [List.foldl_cons]
      exact le_trans (le_max_right b t.length) (foldl_max_seed_le rest _)
    · simp only [List.foldl_cons]
      exact ih _ t hm

theorem prefixScanC_spec (first : List Char) (tags : List (List Char)) :
    ∀ (fuel i : Nat) (pre : List Char) (m : Nat), i + fuel = first.length →
      ∃ k, i ≤ k ∧ k ≤ first.length ∧
        (prefixScanC first tags i fuel pre m).1 = pre ++ (first.drop i).take (k - i) ∧
        (∀ t ∈ tags, ∀ j, i ≤ j → j < k → t[j]? = first[j]?) ∧
        (k < first.length → ∃ t ∈ tags, t[k]? ≠ first[k]?) := by
  intro fuel
  induction fuel with
  | zero =>
    intro i pre m hif
    refine ⟨i, le_refl i, by omega, by simp [prefixScanC], ?_, ?_⟩
    · intro t _ j h1 h2; omega
    · intro h; omega
  | succ fuel ih =>
    intro i pre m hif
    rcases hsc : scanAtC (first[i]?) i m tags with ⟨m2, b⟩
    cases b
    · refine ⟨i, le_refl i, by omega, by simp [prefixScanC, hsc], ?_, ?_⟩
      · intro t _ j h1 h2; omega
      · intro _
        have hfalse : ¬ ∀ t ∈ tags, t[i]? = first[i]? := by
          intro hall
          have htr := (scanAtC_true_iff (first[i]?) i tags m).mpr hall
          rw [hsc] at htr
          simp at htr
        push_neg at hfalse
        exact hfalse
    · obtain ⟨k, hk1, hk2, hres, hag, hbr⟩ :=
        ih (i + 1) (pre ++ (first[i]?).toList) m2 (by omega)
      have hiall : ∀ t ∈ tags, t[i]? = first[i]? := by
        have htr := scanAtC_true_iff (first[i]?) i tags m
        rw [hsc] at htr
        exact htr.mp rfl
      refine ⟨k, by omega, hk2, ?_, ?_, hbr⟩
      · simp only [prefixScanC, hsc]
        rw [hres]
        have hilt : i < first.length := by omega
        have hget : first[i]? = some first[i] := List.getElem?_eq_getElem hilt
        have hdropi : first.drop i = first[i] :: first.drop (i + 1) :=
          List.drop_eq_getElem_cons hilt
        rw [hget, hdropi, show k - i = (k - (i + 1)) + 1 by omega, List.take_succ_cons]
        simp
      · intro t ht j hij hjk
        rcases Nat.eq_or_lt_of_le hij with he | hlt
        · rw [← he]
          exact hiall t ht
        · exact hag t ht j (by omega) hjk

theorem suffixScanAt_true_iff (ci : Option Char) (i : Nat) :
    ∀ (tags : List (List Char)),
      suffixScanAt ci i tags = true ↔ ∀ t ∈ tags, nthBack t i = ci := by
  intro tags
  induction tags with
  | nil => simp [suffixScanAt]
  | cons t rest ih =>
    by_cases h : nthBack t i = ci
    · simp [suffixScanAt, h, ih]
    · simp [suffixScanAt, h]

theorem suffixScanC_spec (first : List Char) (tags : List (List Char)) :
    ∀ (fuel i : Nat) (suf : List Char), i + fuel = first.length →
      ∃ k, i ≤ k ∧ k ≤ first.length ∧
        suffixScanC first tags i fuel suf =
          ((first.reverse.drop i).take (k - i)).reverse ++ suf ∧
        (∀ t ∈ tags, ∀ j, i ≤ j → j < k → nthBack t j = nthBack first j) ∧
        (k < first.length → ∃ t ∈ tags, nthBack t k ≠ nthBack first k) := by
  intro fuel
  induction fuel with
  | zero =>
    intro i suf hif
    refine ⟨i, le_refl i, by omega, by simp [suffixScanC], ?_, ?_⟩
    · intro t _ j h1 h2; omega
    · intro h; omega
  | succ fuel ih =>
    intro i suf hif
    by_cases hall : suffixScanAt (nthBack first i) i tags = true
    · obtain ⟨k, hk1, hk2, hres, hag, hbr⟩ :=
        ih (i + 1) ((nthBack first i).toList ++ suf) (by omega)
      have hiall : ∀ t ∈ tags, nthBack t i = nthBack first i :=
        (suffixScanAt_true_iff (nthBack first i) i tags).mp hall
      refine ⟨k, by omega, hk2, ?_, ?_, hbr⟩
      · simp only [suffixScanC, hall, if_pos]
        rw [hres]
        have hilt : i < first.reverse.length := by
          rw [List.length_reverse]; omega
        have hget : nthBack first i = some first.reverse[i] := by
          simp [nthBack, List.getElem?_eq_getElem hilt]
        have hdropi : first.reverse.drop i = first.reverse[i] :: first.reverse.drop (i + 1) :=
          List.drop_eq_getElem_cons hilt
        rw [hget, hdropi, show k - i = (k - (i + 1)) + 1 by omega, List.take_succ_cons]
        simp
      · intro t ht j hij hjk
        rcases Nat.eq_or_lt_of_le hij with he | hlt
        · rw [← he]
          exact hiall t ht
        · exact hag t ht j (by omega) hjk
    · refine ⟨i, le_refl i, by omega, by simp [suffixScanC, hall], ?_, ?_⟩
      · intro t _ j h1 h2; omega
      · intro _
        have hfalse : ¬ ∀ t ∈ tags, nthBack t i = nthBack first i := by
          intro h
          exact hall ((suffixScanAt_true_iff (nthBack first i) i tags).mpr h)
        push_neg at hfalse
        exact hfalse

theorem agree_take_eq {t first : List Char} {k : Nat} (hk : k ≤ first.length)
    (hag : ∀ j, j < k → t[j]? = first[j]?) : isPre (first.take k) t := by
  have hkt : k ≤ t.length := by
    cases k with
    | zero => omega
    | succ k2 =>
      have hj := hag k2 (by omega)
      have hg : first[k2]? = some first[k2] := List.getElem?_eq_getElem (by omega)
      rw [hg] at hj
      obtain ⟨hlt, _⟩ := List.getElem?_eq_some.mp hj
      omega
  have heq : t.take k = first.take k := by
    apply List.ext_getElem?
    intro n
    by_cases hn : n < k
    · simp [List.getElem?_take, hn, hag n hn]
    · have h1 : (t.take k)[n]? = none := by
        rw [List.getElem?_take, if_neg hn]
      have h2 : (first.take k)[n]? = none := by
        rw [List.getElem?_take, if_neg hn]
      rw [h1, h2]
  exact ⟨t.drop k, by rw [← heq]; exact List.take_append_drop k t⟩

theorem agree_max_isPre {first u : List Char} {tags : List (List Char)} {k : Nat}
    (hfm : first ∈ tags) (hk : k ≤ first.length)
    (hbr : k < first.length → ∃ t ∈ tags, t[k]? ≠ first[k]?)
    (hu : ∀ t ∈ tags, isPre u t) : isPre u (first.take k) := by
  have hupre : isPre u first := hu first hfm
  have hulen : u.length ≤ first.length := isPre_length hupre
  have hukle : u.length ≤ k := by
    by_contra hgt
    push_neg at hgt
    have hklen : k < first.length := lt_of_lt_of_le hgt hulen
    obtain ⟨t, ht, hne⟩ := hbr hklen
    have h1 : t[k]? = u[k]? := isPre_getElem (hu t ht) (by omega)
    have h2 : first[k]? = u[k]? := isPre_getElem hupre (by omega)
    exact hne (h1.trans h2.symm)
  have hueq : first.take u.length = u := take_eq_of_isPre hupre
  have htt : (first.take k).take u.length = first.take u.length := by
    rw [List.take_take, Nat.min_eq_left hukle]
  have hsplit := List.take_append_drop u.length (first.take k)
  rw [htt, hueq] at hsplit
  exact ⟨(first.take k).drop u.length, hsplit⟩

theorem take_eq_specLcp {first : List Char} {rest : List (List Char)} {k : Nat}
    (hk : k ≤ first.length)
    (hag : ∀ t ∈ first :: rest, ∀ j, j < k → t[j]? = first[j]?)
    (hbr : k < first.length → ∃ t ∈ first :: rest, t[k]? ≠ first[k]?) :
    first.take k = specLcp (first :: rest) := by
  apply isPre_antisymm
  · apply isPre_specLcp
    intro t ht
    exact agree_take_eq hk (fun j hj => hag t ht j hj)
  · exact agree_max_isPre (by simp) hk hbr specLcp_isPre

theorem prefixScanC_eq_specLcp (first : List Char) (rest : List (List Char)) :
    (prefixScanC first (first :: rest) 0 first.length [] 0).1 = specLcp (first :: rest) := by
  obtain ⟨k, _, hk2, hres, hag, hbr⟩ :=
    prefixScanC_spec first (first :: rest) first.length 0 [] 0 (by omega)
  rw [hres]
  simp only [List.drop_zero, Nat.sub_zero, List.nil_append]
  exact take_eq_specLcp hk2 (fun t ht j hj => hag t ht j (by omega) hj) hbr

theorem suffixScanC_eq_specLcs (first : List Char) (rest : List (List Char)) :
    suffixScanC first (first :: rest) 0 first.length [] = specLcs (first :: rest) := by
  obtain ⟨k, _, hk2, hres, hag, hbr⟩ :=
    suffixScanC_spec first (first :: rest) first.length 0 [] (by omega)
  rw [hres]
  simp only [List.drop_zero, Nat.sub_zero, List.append_nil]
  have hmain : first.reverse.take k = specLcp (first.reverse :: rest.map List.reverse) := by
    apply take_eq_specLcp
    · rw [List.length_reverse]; exact hk2
    · intro t ht j hj
      rcases List.mem_cons.mp ht with he | hm
      · subst he; rfl
      · obtain ⟨s, hs, hrev⟩ := List.mem_map.mp hm
        subst hrev
        exact hag s (by simp [hs]) j (by omega) hj
    · intro hklen
      obtain ⟨t, ht, hne⟩ := hbr (by rw [List.length_reverse] at hklen; exact hklen)
      refine ⟨t.reverse, ?_, hne⟩
      rcases List.mem_cons.mp ht with he | hm
      · subst he; simp
      · exact List.mem_cons_of_mem _ (List.mem_map.mpr ⟨t, hm, rfl⟩)
  rw [hmain]
  have hmap : (first :: rest).map List.reverse = first.reverse :: rest.map List.reverse := by
    simp
  rw [specLcs, hmap]

theorem prefixScanC_eq_maxLen (first : List Char) (rest : List (List Char)) (c : Char)
    (hc : ∀ t ∈ first :: rest, t[0]? = some c) :
    (prefixScanC first (first :: rest) 0 first.length [] 0).2 = maxLen (first :: rest) := by
  have hf0 : first[0]? = some c := hc first (by simp)
  rcases hfirst : first with _ | ⟨ch, ftail⟩
  · rw [hfirst] at hf0
    simp at hf0
  · rw [← hfirst]
    have hall : ∀ t ∈ first :: rest, t[0]? = first[0]? := by
      intro t ht
      rw [hc t ht, hf0]
    have htrue : (scanAtC (first[0]?) 0 0 (first :: rest)).2 = true :=
      (scanAtC_true_iff _ _ _ _).mpr hall
    rcases hsc : scanAtC (first[0]?) 0 0 (first :: rest) with ⟨m2, b⟩
    have hb : b = true := by rw [hsc] at htrue; exact htrue
    subst hb
    have hm2 : m2 = maxLen (first :: rest) := by
      have hfold := scanAtC_fst_of_true (first[0]?) 0 (first :: rest) 0 htrue
      rw [hsc] at hfold
      simpa [maxLen] using hfold
    have hlen : first.length = ftail.length + 1 := by rw [hfirst]; simp
    rw [hlen]
    simp only [prefixScanC, hsc]
    rw [prefixScanC_snd_stable]
    · exact hm2
    · intro t ht
      rw [hm2]
      exact foldl_max_le_mem _ 0 t ht
theorem byteLen_ascii {t : List Char} (h : ∀ ch ∈ t, Char.utf8Size ch = 1) :
    byteLen t = t.length := by
  induction t with
  | nil => rfl
  | cons c cs ih =>
    have hc : Char.utf8Size c = 1 := h c (by simp)
    have hcs : byteLen cs = cs.length := ih (fun ch hch => h ch (by simp [hch]))
    simp only [byteLen, List.map_cons, List.sum_cons, List.length_cons] at hcs ⊢
    omega

theorem isPre_mem {u t : List Char} (h : isPre u t) : ∀ ch ∈ u, ch ∈ t := by
  obtain ⟨v, hv⟩ := h
  intro ch hch
  rw [← hv]
  exact List.mem_append_left v hch

theorem specLcp_mem {first : List Char} {rest : List (List Char)} :
    ∀ ch ∈ specLcp (first :: rest), ch ∈ first :=
  isPre_mem (specLcp_isPre first (by simp))

theorem specLcs_mem {first : List Char} {rest : List (List Char)} :
    ∀ ch ∈ specLcs (first :: rest), ch ∈ first := by
  intro ch hch
  rw [specLcs, List.mem_reverse] at hch
  have hmap : (first :: rest).map List.reverse =
      first.reverse :: rest.map List.reverse := by simp
  rw [hmap] at hch
  have hpre : isPre (specLcp (first.reverse :: rest.map List.reverse)) first.reverse :=
    specLcp_isPre first.reverse (by simp)
  have hm := isPre_mem hpre ch hch
  simpa using hm

theorem scanAt_ascii (ci : Option Char) (i : Nat) :
    ∀ (tags : List (List Char)) (m : Nat),
      (∀ t ∈ tags, ∀ ch ∈ t, Char.utf8Size ch = 1) →
      scanAt ci i m tags = scanAtC ci i m tags := by
  intro tags
  induction tags with
  | nil => intro m _; rfl
  | cons t rest ih =>
    intro m h
    have hbl : byteLen t = t.length := byteLen_ascii (h t (by simp))
    have hrest : ∀ s ∈ rest, ∀ ch ∈ s, Char.utf8Size ch = 1 :=
      fun s hs => h s (by simp [hs])
    by_cases hc : t[i]? = ci
    · simp [scanAt, scanAtC, hc, hbl, ih _ hrest]
    · simp [scanAt, scanAtC, hc, hbl]

theorem prefixScan_ascii (first : List Char) (tags : List (List Char))
    (htags : ∀ t ∈ tags, ∀ ch ∈ t, Char.utf8Size ch = 1) :
    ∀ (fuel i : Nat) (pre : List Char) (m : Nat), i + fuel ≤ first.length →
      prefixScan first tags i fuel pre m =
        some (prefixScanC first tags i fuel pre m) := by
  intro fuel
  induction fuel with
  | zero => intro i pre m _; rfl
  | succ fuel ih =>
    intro i pre m hif
    have hi : i < first.length := by omega
    have hget : first[i]? = some first[i] := List.getElem?_eq_getElem hi
    rcases hsc : scanAtC (first[i]?) i m tags with ⟨m2, b⟩
    have hscb : scanAt (first[i]?) i m tags = (m2, b) := by
      rw [scanAt_ascii (first[i]?) i tags m htags, hsc]
    cases b
    · simp [prefixScan, prefixScanC, hsc, hscb]
    · simp only [prefixScan, prefixScanC, hsc, hscb]
      rw [hget]
      simp only [Option.toList_some]
      exact ih (i + 1) (pre ++ [first[i]]) m2 (by omega)

theorem suffixScan_ascii (first : List Char) (tags : List (List Char)) :
    ∀ (fuel i : Nat) (suf : List Char), i + fuel ≤ first.length →
      suffixScan first tags i fuel suf =
        some (suffixScanC first tags i fuel suf) := by
  intro fuel
  induction fuel with
  | zero => intro i suf _; rfl
  | succ fuel ih =>
    intro i suf hif
    have hi : i < first.reverse.length := by
      rw [List.length_reverse]; omega
    have hget : nthBack first i = some first.reverse[i] := by
      rw [nthBack]; exact List.getElem?_eq_getElem hi
    by_cases hall : suffixScanAt (nthBack first i) i tags = true
    · simp only [suffixScan, suffixScanC, hall, if_pos]
      rw [hget]
      simp only [Option.toList_some]
      exact ih (i + 1) (first.reverse[i] :: suf) (by omega)
    · have hf : suffixScanAt (nthBack first i) i tags = false := by
        cases hb : suffixScanAt (nthBack first i) i tags
        · rfl
        · exact absurd hb hall
      simp [suffixScan, suffixScanC, hf]

theorem takeBytes_ascii : ∀ (l : List Char) (k : Nat),
    (∀ ch ∈ l, Char.utf8Size ch = 1) → k ≤ l.length →
    takeBytes l k = some (l.take k) := by
  intro l
  induction l with
  | nil =>
    intro k _ hk
    have h0 : k = 0 := by simpa using hk
    subst h0
    rfl
  | cons c cs ih =>
    intro k h hk
    cases k with
    | zero => rfl
    | succ k =>
      have hc : Char.utf8Size c = 1 := h c (by simp)
      simp only [takeBytes, hc]
      rw [if_pos (by omega)]
      rw [show k + 1 - 1 = k from rfl]
      rw [ih k (fun ch hch => h ch (by simp [hch])) (by simpa using hk)]
      simp

/-- Counterexample for C3 as stated: the recomputation does not complete
without panicking for every input set.  On the two distinct names
axxxxx.log and ayyyyy.log (shared prefix a, shared suffix .log, longest
name 10), the trimming step computes `shared_prefix.len() (1) -
chars_to_preserve (3)`, a usize underflow whose wrapped value then makes
the prefix slicing panic; the model returns `none`. -/
theorem claim_C3_counterexample :
    update_trimmed_tags [str "axxxxx.log", str "ayyyyy.log"] [] [] = none := by
  decide

/-- C3 as amended.  For at least two group names made of single-byte
characters (the source mixes byte lengths with character positions, and
the trimming slices at byte indices that can split a multi-byte
character) that share a nonempty common first character (so the partial
max_tag_length scan of the source sees every name), whose longest common
prefix and suffix do not overlap inside the longest name, and whose
longest common suffix leaves at least 8 characters under the longest name
when that is at least 8 characters long: the recomputation completes
without panicking; if the longest name is shorter than 8 characters both
shared strings are cleared; otherwise the shared suffix is exactly the
longest common suffix (never shortened) and the shared prefix is the
longest common prefix cut down exactly far enough that at least 8
distinguishing characters remain.  Outside these conditions the
computation can panic, as the counterexample shows. -/
theorem claim_C3_shared_affixes (first : List Char) (rest : List (List Char)) (c : Char)
    (curPre curSuf : List Char)
    (h2 : rest ≠ [])
    (hc : ∀ t ∈ first :: rest, t[0]? = some c)
    (hascii : ∀ t ∈ first :: rest, ∀ ch ∈ t, Char.utf8Size ch = 1)
    (hov : (specLcp (first :: rest)).length + (specLcs (first :: rest)).length ≤
      maxLen (first :: rest))
    (hs8 : 8 ≤ maxLen (first :: rest) →
      (specLcs (first :: rest)).length + 8 ≤ maxLen (first :: rest)) :
    ∃ pre suf, update_trimmed_tags (first :: rest) curPre curSuf = some (pre, suf) ∧
      (maxLen (first :: rest) < 8 → pre = [] ∧ suf = []) ∧
      (8 ≤ maxLen (first :: rest) →
        suf = specLcs (first :: rest) ∧
        pre = (specLcp (first :: rest)).take
          (min (specLcp (first :: rest)).length
            (maxLen (first :: rest) - (specLcs (first :: rest)).length - 8)) ∧
        8 ≤ maxLen (first :: rest) - pre.length - suf.length) := by
  have hP := prefixScanC_eq_specLcp first rest
  have hM := prefixScanC_eq_maxLen first rest c hc
  have hS := suffixScanC_eq_specLcs first rest
  have hfa : ∀ ch ∈ first, Char.utf8Size ch = 1 := hascii first (by simp)
  have hblf : byteLen first = first.length := byteLen_ascii hfa
  have hPb : prefixScan first (first :: rest) 0 (byteLen first) [] 0 =
      some (prefixScanC first (first :: rest) 0 first.length [] 0) := by
    rw [hblf]
    exact prefixScan_ascii first (first :: rest) hascii first.length 0 [] 0 (by omega)
  have hSb : suffixScan first (first :: rest) 0 (byteLen first) [] =
      some (suffixScanC first (first :: rest) 0 first.length []) := by
    rw [hblf]
    exact suffixScan_ascii first (first :: rest) first.length 0 [] (by omega)
  have hlen2 : ¬ ((first :: rest).length < 2) := by
    rcases rest with _ | ⟨r, rs⟩
    · exact absurd rfl h2
    · simp
  have hPa : ∀ ch ∈ specLcp (first :: rest), Char.utf8Size ch = 1 :=
    fun ch hch => hfa ch (specLcp_mem ch hch)
  have hSa : ∀ ch ∈ specLcs (first :: rest), Char.utf8Size ch = 1 :=
    fun ch hch => hfa ch (specLcs_mem ch hch)
  have hblP := byteLen_ascii hPa
  have hblS := byteLen_ascii hSa
  set P := specLcp (first :: rest) with hPdef
  set S := specLcs (first :: rest) with hSdef
  set m := maxLen (first :: rest) with hmdef
  have hup : update_trimmed_tags (first :: rest) curPre curSuf =
      (if m - P.length - S.length < 8 then
        (if m < 8 then some ([], [])
         else if P.length < 8 - (m - P.length - S.length) then none
         else
           match takeBytes P (P.length - (8 - (m - P.length - S.length))) with
           | none => none
           | some cut => some (cut, S))
       else some (P, S)) := by
    rw [update_trimmed_tags, if_neg hlen2]
    dsimp only
    rw [hPb]
    dsimp only
    rw [hSb]
    dsimp only
    rw [hP, hM, hS, hblP, hblS, if_neg (by omega : ¬ (m < P.length + S.length))]
  by_cases h8 : m < 8
  · refine ⟨[], [], ?_, fun _ => ⟨rfl, rfl⟩, fun hge => absurd hge (by omega)⟩
    rw [hup, if_pos (by omega), if_pos h8]
  · push_neg at h8
    have hs82 := hs8 h8
    by_cases htl : m - P.length - S.length < 8
    · have htake : takeBytes P (P.length - (8 - (m - P.length - S.length))) =
          some (P.take (P.length - (8 - (m - P.length - S.length)))) :=
        takeBytes_ascii P _ hPa (by omega)
      refine ⟨P.take (P.length - (8 - (m - P.length - S.length))), S, ?_, ?_, ?_⟩
      · rw [hup, if_pos htl, if_neg (by omega : ¬ m < 8),
          if_neg (by omega : ¬ (P.length < 8 - (m - P.length - S.length))), htake]
      · intro hlt; omega
      · intro _
        refine ⟨rfl, ?_, ?_⟩
        · congr 1
          omega
        · rw [List.length_take]
          omega
    · refine ⟨P, S, ?_, ?_, ?_⟩
      · rw [hup, if_neg htl]
      · intro hlt; omega
      · intro _
        refine ⟨rfl, ?_, by omega⟩
        rw [show min P.length (m - S.length - 8) = P.length by omega, List.take_length]

/-- Witness for C3 at the names of the repo test
`test_tagmap_with_long_tags`: the suffix /access.log is kept whole and the
prefix is trimmed to /var/log/nginx/sites/customer_p, leaving 8
distinguishing characters. -/
theorem claim_C3_shared_affixes_witness :
    update_trimmed_tags
        [str "/var/log/nginx/sites/customer_project_0/access.log",
          str "/var/log/nginx/sites/customer_project_1/access.log"] [] [] =
      some (str "/var/log/nginx/sites/customer_p", str "/access.log") := by
  obtain ⟨pre, suf, hupw, _, hbig⟩ :=
    claim_C3_shared_affixes (str "/var/log/nginx/sites/customer_project_0/access.log")
      [str "/var/log/nginx/sites/customer_project_1/access.log"] '/' [] []
      (by decide) (by decide) (by decide) (by decide) (fun _ => by decide)
  obtain ⟨hsufw, hprew, _⟩ := hbig (by decide)
  rw [hupw, hprew, hsufw]
  decide

theorem buildLines_ne_nil {c : Nat} {pls : List (List Char × Option (List Char))}
    {sk : Nat} {L : List Char} (h : buildLines c pls sk = some L) : L ≠ [] := by
  intro hnil
  subst hnil
  rw [buildLines] at h
  rcases hseq : seqOpt (pls.map (lineFlushEntry c)) with _ | ls <;> rw [hseq] at h
  · simp at h
  · simp only [Option.map_some'] at h
    have h2 := Option.some.inj h
    rcases List.append_eq_nil.mp h2 with ⟨_, hfoot⟩
    rcases List.append_eq_nil.mp hfoot with ⟨_, hc⟩
    exact absurd hc (by decide)

/-- C7: for every Print cycle that completes without panicking, nothing
is written exactly when there are no raw lines to flush (none requested
or none pending) and the freshly built stats text equals the stats text
of the previous write; in the skipped case the renderer state (last
printed stats, lines-to-wipe count, pending lines, skip counter) is
unchanged, and whenever a write does happen at least one byte is
written. -/
theorem claim_C7_print_skip (st : TuiState) (include_lines : Bool) (now : Nat)
    (st2 : TuiState) (out : Option (List Char))
    (h : stepPrint st include_lines now = some (st2, out)) :
    ∃ S, buildStats (st.groups.map (fun g => g.process now)) st.sharedPre st.sharedSuf
        st.globalCodes = some S ∧
      (out = none ↔
        ¬ (include_lines = true ∧ st.pending_lines ≠ []) ∧ S = st.lastprinted_stats) ∧
      (out = none →
        st2.lastprinted_stats = st.lastprinted_stats ∧
          st2.lines_to_wipe = st.lines_to_wipe ∧
          st2.pending_lines = st.pending_lines ∧
          st2.lines_skipped = st.lines_skipped) ∧
      (∀ o, out = some o → o ≠ []) := by
  unfold stepPrint at h
  by_cases hf : include_lines = true ∧ st.pending_lines ≠ []
  · have hflush : (include_lines && !st.pending_lines.isEmpty) = true := by
      rw [hf.1]
      simp [hf.2]
    rw [hflush] at h
    simp only [if_true] at h
    rcases hbl : buildLines st.cut_width st.pending_lines st.lines_skipped with _ | L <;>
      rw [hbl] at h
    · simp at h
    · simp only [] at h
      rcases hbs : buildStats (st.groups.map (fun g => g.process now)) st.sharedPre
          st.sharedSuf st.globalCodes with _ | S <;> rw [hbs] at h
      · simp at h
      · simp only [] at h
        have hLne : L ≠ [] := buildLines_ne_nil hbl
        rw [if_pos (Or.inl hLne)] at h
        have h2 := Option.some.inj h
        have hout : out = some
            ((if st.lines_to_wipe + (if include_lines then 1 else 0) = 0 then
                '\r' :: (colors.CSI ++ ('J' :: []))
              else
                '\r' :: (colors.CSI ++
                  natToChars (st.lines_to_wipe + (if include_lines then 1 else 0)) ++
                  ('A' :: []) ++ colors.CSI ++ ('J' :: []))) ++ L ++ S) :=
          (congrArg Prod.snd h2).symm
        refine ⟨S, hbs, ?_, ?_, ?_⟩
        · rw [hout]
          simp only [reduceCtorEq, false_iff]
          intro hr
          exact hr.1 hf
        · intro hn
          rw [hout] at hn
          exact absurd hn (by simp)
        · intro o ho
          rw [hout] at ho
          have ho2 := Option.some.inj ho
          rw [← ho2]
          intro hnil
          rcases List.append_eq_nil.mp hnil with ⟨h1, _⟩
          rcases List.append_eq_nil.mp h1 with ⟨hwip, _⟩
          revert hwip
          split <;> simp <;> split <;> simp
  · have hflush : (include_lines && !st.pending_lines.isEmpty) = false := by
      by_cases hb : include_lines = true
      · have hpe : st.pending_lines = [] := by
          by_contra hne
          exact hf ⟨hb, hne⟩
        simp [hpe]
      · have hfb : include_lines = false := by
          cases include_lines
          · rfl
          · exact absurd rfl hb
        simp [hfb]
    rw [hflush] at h
    simp only [Bool.false_eq_true, if_false] at h
    rcases hbs : buildStats (st.groups.map (fun g => g.process now)) st.sharedPre
        st.sharedSuf st.globalCodes with _ | S <;> rw [hbs] at h
    · simp at h
    · simp only [] at h
      by_cases heq : S = st.lastprinted_stats
      · rw [if_neg (by simp [heq])] at h
        have h2 := Option.some.inj h
        have hst : st2 = { st with
            groups := st.groups.map (fun g => g.process now),
            pending_lines := st.pending_lines,
            lines_skipped := st.lines_skipped } :=
          (congrArg Prod.fst h2).symm
        have hout : out = none := (congrArg Prod.snd h2).symm
        refine ⟨S, hbs, ?_, ?_, ?_⟩
        · rw [hout]
          simp [hf, heq]
        · intro _
          rw [hst]
          exact ⟨rfl, rfl, rfl, rfl⟩
        · intro o ho
          rw [hout] at ho
          exact absurd ho (by simp)
      · rw [if_pos (Or.inr heq)] at h
        have h2 := Option.some.inj h
        have hout : out = some
            ((if st.lines_to_wipe + (if include_lines then 1 else 0) = 0 then
                '\r' :: (colors.CSI ++ ('J' :: []))
              else
                '\r' :: (colors.CSI ++
                  natToChars (st.lines_to_wipe + (if include_lines then 1 else 0)) ++
                  ('A' :: []) ++ colors.CSI ++ ('J' :: []))) ++ [] ++ S) :=
          (congrArg Prod.snd h2).symm
        refine ⟨S, hbs, ?_, ?_, ?_⟩
        · rw [hout]
          simp only [reduceCtorEq, false_iff]
          intro hr
          exact heq hr.2
        · intro hn
          rw [hout] at hn
          exact absurd hn (by simp)
        · intro o ho
          rw [hout] at ho
          have ho2 := Option.some.inj ho
          rw [← ho2]
          intro hnil
          rcases List.append_eq_nil.mp hnil with ⟨h1, _⟩
          rcases List.append_eq_nil.mp h1 with ⟨hwip, _⟩
          revert hwip
          split <;> simp <;> split <;> simp

/-- Witness for C7: with no groups, no pending lines and an empty last
printed stats text, a stats-only Print cycle completes and writes
nothing. -/
theorem claim_C7_print_skip_witness :
    ∃ S, buildStats ((initTui 0).groups.map (fun g => g.process 5)) (initTui 0).sharedPre
        (initTui 0).sharedSuf (initTui 0).globalCodes = some S ∧
      ((none : Option (List Char)) = none ↔
        ¬ (false = true ∧ (initTui 0).pending_lines ≠ []) ∧
          S = (initTui 0).lastprinted_stats) ∧
      ((none : Option (List Char)) = none →
        (initTui 0).lastprinted_stats = (initTui 0).lastprinted_stats ∧
          (initTui 0).lines_to_wipe = (initTui 0).lines_to_wipe ∧
          (initTui 0).pending_lines = (initTui 0).pending_lines ∧
          (initTui 0).lines_skipped = (initTui 0).lines_skipped) ∧
      (∀ o, (none : Option (List Char)) = some o → o ≠ []) :=
  claim_C7_print_skip (initTui 0) false 5 (initTui 0) none (by decide)

end NginxTail
